import Mathlib

/-!
# jsonhandler: a dynamically typed JSON document tree

A shallow embedding of `jsonhandler.go` and the properties of its navigation,
mutation and deletion operations.

Modelling conventions.

* A Go `interface{}` value is a `GoValue`; the constructors are the dynamic types
  the package distinguishes, and `other` stands for a value of any further type,
  known only by what `reflect` reports about it.
* A `*JsonNode` is modelled by the tree it points to (`Option JsonNode`, `none`
  being the nil pointer).  A method that mutates its receiver returns the new
  receiver next to its Go results, and a change made through a child pointer is
  written back into the parent (`putChild`, `putAt`).  The development therefore
  speaks about trees without shared substructure.
* Where two live nodes share a map or a slice, the methods are embedded a second
  time over a store of cells, maps and backing arrays (namespace `Heap`), in
  which a `*JsonNode` is an address.
* The library functions `json.Unmarshal` and `strconv.FormatFloat` are parameters
  of the methods that call them (`Unmarshal`, `Marshal`).
* A `JObjectValue` (a Go map) is an association list; only lookup, insertion and
  removal by key are used, never the position of an entry.
* A run-time panic (nil dereference, failed type assertion, index out of range)
  is the outcome `Outcome.fault`; a Go `error` is `Option String`, `none` being
  the nil error.
* Go `int` is a 64-bit integer, carried as an `Int`; a `float64` is carried by its
  IEEE-754 bit pattern.  Memory is unbounded: extending a slice never fails.
-/

namespace jsonhandler

/-! ## Data model -/

/-- The enumeration `jsonType` of the source. -/
inductive jsonType
  | JArray | JObject | JBool | JNumber | JString | JNull
  deriving DecidableEq, Repr

/-- A Go `float64`, as its 64-bit IEEE-754 pattern. -/
structure float64 where
  bits : Nat
  deriving DecidableEq, Repr

/-- The `reflect.Kind`s the source tells apart. -/
inductive Kind
  | Int | String | Other
  deriving DecidableEq, Repr

mutual
/-- A Go `interface{}` value. -/
inductive GoValue : Type
  | nil
  | bool (b : Bool)
  | float64 (f : float64)
  | string (s : String)
  | int (i : Int)
  | slice (xs : List GoValue)
  | gomap (m : List (String × GoValue))
  | JArrayValue (xs : List JsonNode)
  | JObjectValue (m : List (String × JsonNode))
  | ptr (p : Option JsonNode)
  | other (typeName : String) (kind : Kind)
/-- The struct `JsonNode`: a tag and a payload. -/
inductive JsonNode : Type
  | mk (nodeType : jsonType) (value : GoValue)
end

/-- The tag of a node. -/
def JsonNode.nodeType : JsonNode → jsonType
  | .mk t _ => t

/-- The payload of a node. -/
def JsonNode.value : JsonNode → GoValue
  | .mk _ v => v

/-- A Go `error`; `none` is the nil error. -/
abbrev error := Option String

/-- What running a piece of Go code gives: it returns, or the goroutine panics. -/
inductive Outcome (α : Type)
  | ret (a : α)
  | fault

/-- What `reflect.TypeOf` reports: the type's printed name and its kind. -/
structure reflectType where
  name : String
  kind : Kind

/-- The function `reflect.TypeOf`; `none` is the nil `Type` returned for a nil interface,
on which every method call panics. -/
def TypeOf : GoValue → Option reflectType
  | .nil => none
  | .bool _ => some ⟨"bool", .Other⟩
  | .float64 _ => some ⟨"float64", .Other⟩
  | .string _ => some ⟨"string", .String⟩
  | .int _ => some ⟨"int", .Int⟩
  | .slice _ => some ⟨"[]interface \x7b\x7d", .Other⟩
  | .gomap _ => some ⟨"map[string]interface \x7b\x7d", .Other⟩
  | .JArrayValue _ => some ⟨"jsonhandler.JArrayValue", .Other⟩
  | .JObjectValue _ => some ⟨"jsonhandler.JObjectValue", .Other⟩
  | .ptr _ => some ⟨"*jsonhandler.JsonNode", .Other⟩
  | .other n k => some ⟨n, k⟩

/-! ## Go maps and slices -/

/-- Map index expression `m[k]`: the entry for `k`, if there is one. -/
def mapGet : List (String × JsonNode) → String → Option JsonNode
  | [], _ => none
  | (k', x) :: m, k => if k' = k then some x else mapGet m k

/-- Map assignment `m[k] = x`. -/
def mapSet : List (String × JsonNode) → String → JsonNode → List (String × JsonNode)
  | [], k, x => [(k, x)]
  | (k', y) :: m, k, x => if k' = k then (k, x) :: m else (k', y) :: mapSet m k x

/-- The builtin `delete(m, k)`. -/
def mapDelete : List (String × JsonNode) → String → List (String × JsonNode)
  | [], _ => []
  | (k', y) :: m, k => if k' = k then mapDelete m k else (k', y) :: mapDelete m k

/-- The number of binary digits of `m`, for `m` below `2 ^ fuel`. -/
def bitLen : Nat → Nat → Nat
  | 0, _ => 0
  | fuel + 1, m => if m = 0 then 0 else bitLen fuel (m / 2) + 1

/-- The conversion `float64(i)` of a 64-bit `int`: the nearest double, ties to even. -/
def float64OfInt (i : Int) : float64 :=
  let m := i.natAbs
  if m = 0 then ⟨0⟩ else
    let e := bitLen 64 m - 1
    let q := if e ≤ 52 then m * 2 ^ (52 - e) else
      let sh := e - 52
      let q := m / 2 ^ sh
      let r := m % 2 ^ sh
      if 2 ^ (sh - 1) < r ∨ (r = 2 ^ (sh - 1) ∧ q % 2 = 1) then q + 1 else q
    let e := if q = 2 ^ 53 then e + 1 else e
    let q := if q = 2 ^ 53 then 2 ^ 52 else q
    ⟨(if i < 0 then 2 ^ 63 else 0) + (e + 1023) * 2 ^ 52 + (q - 2 ^ 52)⟩

/-! ## Construction and tag tests -/

/-- The function `typeToJsonType`. -/
def typeToJsonType (f : GoValue) : jsonType × error :=
  match f with
  | .slice _ => (.JArray, none)
  | .gomap _ => (.JObject, none)
  | .bool _ => (.JBool, none)
  | .float64 _ => (.JNumber, none)
  | .string _ => (.JString, none)
  | .nil => (.JNull, none)
  | _ => (.JNull, some "wrong type")

/-- The constructor `NewJsonNode`: a Null node (its error result is always nil). -/
def NewJsonNode : JsonNode := .mk .JNull .nil

/-- The method `IsArray`. -/
def JsonNode.IsArray (node : JsonNode) : Bool := node.nodeType = .JArray

/-- The method `IsObject`. -/
def JsonNode.IsObject (node : JsonNode) : Bool := node.nodeType = .JObject

/-- The method `IsBool`. -/
def JsonNode.IsBool (node : JsonNode) : Bool := node.nodeType = .JBool

/-- The method `IsNumber`. -/
def JsonNode.IsNumber (node : JsonNode) : Bool := node.nodeType = .JNumber

/-- The method `IsString`. -/
def JsonNode.IsString (node : JsonNode) : Bool := node.nodeType = .JString

/-- The method `IsNull`. -/
def JsonNode.IsNull (node : JsonNode) : Bool := node.nodeType = .JNull

/-! ## Navigation -/

/-- The method `getNextNode`.  The receiver may be the nil pointer, which the `string`
and `int` cases dereference; the map index gives the nil pointer for an absent key, and
the slice index panics outside `[0, len)`. -/
def getNextNode (node : Option JsonNode) (arg : GoValue) : Outcome (Option JsonNode × error) :=
  match arg with
  | .string k =>
    match node with
    | none => .fault
    | some n =>
      if n.nodeType = .JObject then
        match n.value with
        | .JObjectValue m => .ret (mapGet m k, none)
        | _ => .fault
      else .ret (none, some "is not a json object")
  | .int i =>
    match node with
    | none => .fault
    | some n =>
      if n.nodeType = .JArray then
        match n.value with
        | .JArrayValue xs => if 0 ≤ i ∧ i < xs.length then .ret (xs[i.toNat]?, none) else .fault
        | _ => .fault
      else .ret (none, some "is not a json array")
  | _ =>
    match TypeOf arg with
    | none => .fault
    | some t => .ret (none, some ("key is not an acceptable type.type is " ++ t.name))

/-- The method `Get`. -/
def Get (node : Option JsonNode) (args : List GoValue) : Outcome (Option JsonNode × error) :=
  match args with
  | [] => .ret (none, some "wrong type")
  | [arg] => getNextNode node arg
  | arg :: arg2 :: rest =>
    match getNextNode node arg with
    | .fault => .fault
    | .ret (firstNode, err) =>
      if err ≠ none then .ret (none, err) else Get firstNode (arg2 :: rest)

/-- The method `GetBool`. -/
def GetBool (node : JsonNode) (args : List GoValue) : Outcome (Bool × error) :=
  match Get (some node) args with
  | .fault => .fault
  | .ret (none, _) => .fault
  | .ret (some r, e) =>
    if !r.IsBool then .ret (false, some "node is not bool type")
    else match r.value with
      | .bool b => .ret (b, e)
      | _ => .fault

/-- The method `GetNumber`. -/
def GetNumber (node : JsonNode) (args : List GoValue) : Outcome (float64 × error) :=
  match Get (some node) args with
  | .fault => .fault
  | .ret (none, _) => .fault
  | .ret (some r, e) =>
    if !r.IsNumber then .ret (⟨0⟩, some "node is not number type")
    else match r.value with
      | .float64 f => .ret (f, e)
      | _ => .fault

/-- The method `GetString`. -/
def GetString (node : JsonNode) (args : List GoValue) : Outcome (String × error) :=
  match Get (some node) args with
  | .fault => .fault
  | .ret (none, _) => .fault
  | .ret (some r, e) =>
    if !r.IsString then .ret ("", some "node is not string type")
    else match r.value with
      | .string s => .ret (s, e)
      | _ => .fault

/-- The method `GetNull`; its first result is always the nil interface. -/
def GetNull (node : JsonNode) (args : List GoValue) : Outcome (GoValue × error) :=
  match Get (some node) args with
  | .fault => .fault
  | .ret (none, _) => .fault
  | .ret (some r, e) =>
    if !r.IsNull then .ret (.nil, some "node is not null type")
    else .ret (.nil, e)

/-! ## Mutation -/

/-- The extension loop of `getOrAddNextNode`: each iteration appends a fresh Null node. -/
def appendNulls (xs : List JsonNode) : Nat → List JsonNode
  | 0 => xs
  | n + 1 => appendNulls (xs ++ [NewJsonNode]) n

/-- The method `getOrAddNextNode`, returning the receiver after the call as well.  A node
of the wrong tag is first overwritten with an empty container, after which the source
calls itself once more and takes the branch for the right tag; the two steps are in
sequence here.  The loop `for i := arrLen; i <= arg; i++` runs `arg + 1 - arrLen` times. -/
def getOrAddNextNode (node : JsonNode) (arg : GoValue) :
    JsonNode × Outcome (Option JsonNode × error) :=
  match arg with
  | .string k =>
    let node := if node.nodeType = .JObject then node else .mk .JObject (.JObjectValue [])
    match node.value with
    | .JObjectValue m =>
      let m := match mapGet m k with
        | some _ => m
        | none => mapSet m k NewJsonNode
      (.mk node.nodeType (.JObjectValue m), .ret (mapGet m k, none))
    | _ => (node, .fault)
  | .int i =>
    let node := if node.nodeType = .JArray then node else .mk .JArray (.JArrayValue [])
    match node.value with
    | .JArrayValue xs =>
      if i < 0 then (node, .ret (none, some "index can not < 0"))
      else
        let xs := if i ≥ xs.length then appendNulls xs (i.toNat + 1 - xs.length) else xs
        (.mk node.nodeType (.JArrayValue xs), .ret (xs[i.toNat]?, none))
    | _ => (node, .fault)
  | _ =>
    match TypeOf arg with
    | none => (node, .fault)
    | some t => (node, .ret (none, some ("key is not an acceptable type.type is " ++ t.name)))

/-- Writing through a child pointer: the child of `node` selected by `arg` becomes
`child`.  In the source this is the in-place mutation of the node that
`getOrAddNextNode` or `getNextNode` returned. -/
def putChild (node : JsonNode) (arg : GoValue) (child : JsonNode) : JsonNode :=
  match arg, node with
  | .string k, .mk t (.JObjectValue m) => .mk t (.JObjectValue (mapSet m k child))
  | .int i, .mk t (.JArrayValue xs) => .mk t (.JArrayValue (xs.set i.toNat child))
  | _, _ => node

/-- Writing through the pointer `Get` returned for `path`: the descendant of `node` at
`path` becomes `r`. -/
def putAt (node : JsonNode) (path : List GoValue) (r : JsonNode) : JsonNode :=
  match path with
  | [] => r
  | arg :: rest =>
    match getNextNode (some node) arg with
    | .ret (some c, _) => putChild node arg (putAt c rest r)
    | _ => node

/-- The first statement of `Set`: a value of kind `Int` is asserted to be an `int` and
converted to `float64`. -/
def intToFloat (value : GoValue) : Outcome GoValue :=
  match TypeOf value with
  | none => .fault
  | some t =>
    if t.kind = .Int then
      match value with
      | .int i => .ret (.float64 (float64OfInt i))
      | _ => .fault
    else .ret value

/-- The method `Set` called with no path segment: the node takes the tag and payload of
`value`. -/
def setValue (node : JsonNode) (value : GoValue) : JsonNode × Outcome (Option JsonNode × error) :=
  match intToFloat value with
  | .fault => (node, .fault)
  | .ret value =>
    match value with
    | .ptr none => (node, .fault)
    | .ptr (some n) => (.mk n.nodeType n.value, .ret (some (.mk n.nodeType n.value), none))
    | _ => (.mk (typeToJsonType value).1 value,
            .ret (some (.mk (typeToJsonType value).1 value), (typeToJsonType value).2))

/-- The method `Set` called on the nil pointer with at least two path segments: it
returns only when `getOrAddNextNode` fails before touching its receiver. -/
def nilSet (value : GoValue) (args : List GoValue) : Outcome (Option JsonNode × error) :=
  match intToFloat value with
  | .fault => .fault
  | .ret _ =>
    match args with
    | arg :: _ :: _ =>
      match arg with
      | .string _ => .fault
      | .int _ => .fault
      | _ =>
        match TypeOf arg with
        | none => .fault
        | some t => .ret (none, some ("key is not an acceptable type.type is " ++ t.name))
    | _ => .fault

/-- The method `Set`, returning the receiver after the call as well. -/
def Set (node : JsonNode) (value : GoValue) (args : List GoValue) :
    JsonNode × Outcome (Option JsonNode × error) :=
  match args with
  | [] => setValue node value
  | [arg] =>
    match intToFloat value with
    | .fault => (node, .fault)
    | .ret value =>
      match getOrAddNextNode node arg with
      | (node, .fault) => (node, .fault)
      | (node, .ret (none, _)) => (node, .fault)
      | (node, .ret (some firstNode, _)) =>
        match setValue firstNode value with
        | (firstNode, r) => (putChild node arg firstNode, r)
  | arg :: arg2 :: rest =>
    match intToFloat value with
    | .fault => (node, .fault)
    | .ret value =>
      match getOrAddNextNode node arg with
      | (node, .fault) => (node, .fault)
      | (node, .ret (firstNode, err)) =>
        if err ≠ none then (node, .ret (none, err))
        else
          match firstNode with
          | none => (node, nilSet value (arg2 :: rest))
          | some firstNode =>
            match Set firstNode value (arg2 :: rest) with
            | (firstNode, r) => (putChild node arg firstNode, r)

/-! ## Deletion -/

/-- The method `Delete` called with one path segment. -/
def deleteChild (node : JsonNode) (arg : GoValue) : JsonNode × Outcome (Bool × error) :=
  match node.nodeType with
  | .JObject =>
    match TypeOf arg with
    | none => (node, .fault)
    | some t =>
      if t.kind = .String then
        match arg with
        | .string key =>
          match node.value with
          | .JObjectValue m =>
            match mapGet m key with
            | some _ => (.mk node.nodeType (.JObjectValue (mapDelete m key)), .ret (true, none))
            | none => (node, .ret (false, some "there is no json info here"))
          | _ => (node, .fault)
        | _ => (node, .fault)
      else (node, .ret (false, some "there is no json info here"))
  | .JArray =>
    match TypeOf arg with
    | none => (node, .fault)
    | some t =>
      if t.kind = .Int then
        match arg with
        | .int index =>
          if index < 0 then (node, .ret (false, some "there is no json info here"))
          else
            match node.value with
            | .JArrayValue xs =>
              if index < xs.length then
                (.mk node.nodeType (.JArrayValue (xs.eraseIdx index.toNat)),
                  .ret (false, some "there is no json info here"))
              else (node, .ret (false, some "there is no json info here"))
            | _ => (node, .fault)
        | _ => (node, .fault)
      else (node, .ret (false, some "there is no json info here"))
  | _ => (node, .ret (false, some "there is no json info here"))

/-- The method `Delete`, returning the receiver after the call as well. -/
def Delete (node : JsonNode) (args : List GoValue) : JsonNode × Outcome (Bool × error) :=
  match args with
  | [] => (.mk .JNull .nil, .ret (false, some "can not delete without parameter"))
  | [arg] => deleteChild node arg
  | arg :: arg2 :: rest =>
    match Get (some node) (arg :: arg2 :: rest).dropLast with
    | .fault => (node, .fault)
    | .ret (r, err) =>
      if err ≠ none then (node, .ret (false, some "there is no json info here"))
      else
        match r with
        | none => (node, .fault)
        | some r =>
          match deleteChild r ((arg2 :: rest).getLast (List.cons_ne_nil arg2 rest)) with
          | (r, out) => (putAt node (arg :: arg2 :: rest).dropLast r, out)

/-! ## Vocabulary of the properties -/

mutual
/-- Tag and payload agree, here and in every node below: an Array holds a `JArrayValue`
of consistent nodes, an Object a `JObjectValue` of consistent nodes, a Bool a `bool`, a
Number a `float64`, a String a `string`, and a Null the nil payload. -/
def consistent : JsonNode → Bool
  | .mk .JArray (.JArrayValue xs) => consistentList xs
  | .mk .JObject (.JObjectValue m) => consistentEntries m
  | .mk .JBool (.bool _) => true
  | .mk .JNumber (.float64 _) => true
  | .mk .JString (.string _) => true
  | .mk .JNull .nil => true
  | _ => false
/-- Every node of a slice is consistent. -/
def consistentList : List JsonNode → Bool
  | [] => true
  | x :: xs => consistent x && consistentList xs
/-- Every value of a map is consistent. -/
def consistentEntries : List (String × JsonNode) → Bool
  | [] => true
  | (_, x) :: m => consistent x && consistentEntries m
end

/-- A scalar value handed to `Set`: a `bool`, a `float64`, a `string` or a native `int`. -/
def isScalar : GoValue → Bool
  | .bool _ => true
  | .float64 _ => true
  | .string _ => true
  | .int _ => true
  | _ => false

/-- The node that holds exactly the scalar `v`; a native `int` is held as the Number
`float64(i)`. -/
def nodeOf : GoValue → JsonNode
  | .bool b => .mk .JBool (.bool b)
  | .float64 f => .mk .JNumber (.float64 f)
  | .string s => .mk .JString (.string s)
  | .int i => .mk .JNumber (.float64 (float64OfInt i))
  | _ => NewJsonNode

/-- A path segment of the kind `Set` accepts: a string key or a non-negative `int`. -/
def isSegment : GoValue → Bool
  | .string _ => true
  | .int i => decide (0 ≤ i)
  | _ => false

/-- The child a segment addresses: the value of a string key present in an Object, or
the element at an `int` index within `[0, len)` of an Array. -/
def child : JsonNode → GoValue → Option JsonNode
  | .mk .JObject (.JObjectValue m), .string k => mapGet m k
  | .mk .JArray (.JArrayValue xs), .int i => if 0 ≤ i then xs[i.toNat]? else none
  | _, _ => none

/-- The descendant reached by following the segments of a path in order. -/
def descendant : JsonNode → List GoValue → Option JsonNode
  | n, [] => some n
  | n, s :: rest =>
    match child n s with
    | none => none
    | some c => descendant c rest

/-- A segment on which `getOrAddNextNode` fails at the node `d` without touching it: a
value that is neither a `string` nor an `int` (and not the nil interface, whose type
cannot be printed), or a negative `int` when `d` is already an Array. -/
def failsUntouched (d : JsonNode) (s : GoValue) : Bool :=
  match s, d with
  | .string _, _ => false
  | .int i, .mk .JArray (.JArrayValue _) => decide (i < 0)
  | .int _, _ => false
  | .nil, _ => false
  | _, _ => true

/-- A segment at which `getOrAddNextNode` returns an error whatever the node: a value
other than the nil interface that is neither a `string` nor an `int`, or a negative
`int`. -/
def isFailingSegment : GoValue → Bool
  | .string _ => false
  | .int i => decide (i < 0)
  | .nil => false
  | _ => true

/-! ## Trees of the tests -/

/-- The tree `Unmarshal` builds for the text
`{"Name":"Wednesday","Age":6,"Parents":["Gomez","Morticia"]}` of the tests. -/
def wednesday : JsonNode :=
  .mk .JObject (.JObjectValue [
    ("Name", .mk .JString (.string "Wednesday")),
    ("Age", .mk .JNumber (.float64 (float64OfInt 6))),
    ("Parents", .mk .JArray (.JArrayValue [
      .mk .JString (.string "Gomez"), .mk .JString (.string "Morticia")]))])

/-- The tree `Unmarshal` builds for the text
`[{"Name":"Wednesday","Age":6,"Parents":["Gomez","Morticia"]},"hello"]` of the tests. -/
def wednesdayList : JsonNode :=
  .mk .JArray (.JArrayValue [wednesday, .mk .JString (.string "hello")])

/-! ## Ingestion and copying -/

mutual
/-- The function `supportUnmarshal`: the generic value of the decoder becomes a node.
The `default` case prints the type of the value. -/
def supportUnmarshal : GoValue → Outcome (Option JsonNode × error)
  | .slice xs =>
    match supportUnmarshalList xs [] with
    | .fault => .fault
    | .ret (_, some e) => .ret (none, some e)
    | .ret (vList, none) => .ret (some (.mk .JArray (.JArrayValue vList)), none)
  | .gomap m =>
    match supportUnmarshalMap m [] with
    | .fault => .fault
    | .ret (_, some e) => .ret (none, some e)
    | .ret (vMap, none) => .ret (some (.mk .JObject (.JObjectValue vMap)), none)
  | .bool b => .ret (some (.mk .JBool (.bool b)), none)
  | .float64 f => .ret (some (.mk .JNumber (.float64 f)), none)
  | .string s => .ret (some (.mk .JString (.string s)), none)
  | .nil => .ret (some (.mk .JNull .nil), none)
  | f =>
    match TypeOf f with
    | none => .fault
    | some t => .ret (none, some ("wrong type " ++ t.name))
/-- The loop of `supportUnmarshal` over a generic slice: each converted element is
appended to `vList`; the first error ends the loop.  A nil node never comes with a nil
error. -/
def supportUnmarshalList : List GoValue → List JsonNode → Outcome (List JsonNode × error)
  | [], vList => .ret (vList, none)
  | v :: rest, vList =>
    match supportUnmarshal v with
    | .fault => .fault
    | .ret (_, some e) => .ret (vList, some e)
    | .ret (none, none) => .fault
    | .ret (some getNode, none) => supportUnmarshalList rest (vList ++ [getNode])
/-- The loop of `supportUnmarshal` over a generic map: each converted value is stored
under its key in `vMap`; the first error ends the loop. -/
def supportUnmarshalMap :
    List (String × GoValue) → List (String × JsonNode) →
      Outcome (List (String × JsonNode) × error)
  | [], vMap => .ret (vMap, none)
  | (k, v) :: rest, vMap =>
    match supportUnmarshal v with
    | .fault => .fault
    | .ret (_, some e) => .ret (vMap, some e)
    | .ret (none, none) => .fault
    | .ret (some getNode, none) => supportUnmarshalMap rest (mapSet vMap k getNode)
end

/-- The method `Copy`: the receiver takes the tag and the payload of `copyFrom`; a nil
`copyFrom` is dereferenced. -/
def Copy (node : JsonNode) (copyFrom : Option JsonNode) : JsonNode × Outcome error :=
  match copyFrom with
  | none => (node, .fault)
  | some c => (.mk c.nodeType c.value, .ret none)

/-- The method `Unmarshal`.  The decoder `json.Unmarshal` of the standard library is the
parameter `decode`: from the text it gives the generic value and its error. -/
def Unmarshal (decode : String → GoValue × error) (node : JsonNode) (body : String) :
    JsonNode × Outcome error :=
  match decode body with
  | (_, some e) => (node, .ret (some e))
  | (f, none) =>
    match supportUnmarshal f with
    | .fault => (node, .fault)
    | .ret (_, some e) => (node, .ret (some e))
    | .ret (returnNode, none) =>
      match Copy node returnNode with
      | (node, .fault) => (node, .fault)
      | (node, .ret _) => (node, .ret none)

/-! ## Iteration -/

/-- The loop of `Do` over a slice, from index `i` on.  The visitor `fn` is a Go closure:
its own variables are the state `σ`, and what it does to the child it is handed is the
node it returns. -/
def doArray {σ : Type} (fn : σ → GoValue → JsonNode → σ × JsonNode) :
    Nat → List JsonNode → σ → σ × List JsonNode
  | _, [], s => (s, [])
  | i, v :: rest, s =>
    match fn s (.int i) v with
    | (s, v) =>
      match doArray fn (i + 1) rest s with
      | (s, rest) => (s, v :: rest)

/-- The loop of `Do` over a map; the entries come in the order the run-time picks, which
is the order of the list. -/
def doObject {σ : Type} (fn : σ → GoValue → JsonNode → σ × JsonNode) :
    List (String × JsonNode) → σ → σ × List (String × JsonNode)
  | [], s => (s, [])
  | (k, v) :: rest, s =>
    match fn s (.string k) v with
    | (s, v) =>
      match doObject fn rest s with
      | (s, rest) => (s, (k, v) :: rest)

/-- The method `Do`, returning the receiver and the state of the visitor after the call
as well. -/
def Do {σ : Type} (node : JsonNode) (fn : σ → GoValue → JsonNode → σ × JsonNode) (s : σ) :
    JsonNode × σ × Outcome error :=
  match node.nodeType with
  | .JArray =>
    match node.value with
    | .JArrayValue xs =>
      match doArray fn 0 xs s with
      | (s, xs) => (.mk node.nodeType (.JArrayValue xs), s, .ret none)
    | _ => (node, s, .fault)
  | .JObject =>
    match node.value with
    | .JObjectValue m =>
      match doObject fn m s with
      | (s, m) => (.mk node.nodeType (.JObjectValue m), s, .ret none)
    | _ => (node, s, .fault)
  | _ => (node, s, .ret (some "can not be iterated"))

/-! ## Serialization -/

mutual
/-- The method `Marshal`.  The library function `strconv.FormatFloat(·, 'f', -1, 64)` is
the parameter `FormatFloat`. -/
def Marshal (FormatFloat : float64 → String) : JsonNode → Outcome (String × error)
  | .mk .JArray v =>
    match v with
    | .JArrayValue xs =>
      match marshalArray FormatFloat xs "[" false with
      | .fault => .fault
      | .ret (_, some e) => .ret ("", some e)
      | .ret (str, none) => .ret (str ++ "]", none)
    | _ => .fault
  | .mk .JObject v =>
    match v with
    | .JObjectValue m =>
      match marshalObject FormatFloat m "\x7b" false with
      | .fault => .fault
      | .ret (_, some e) => .ret ("", some e)
      | .ret (str, none) => .ret (str ++ "\x7d", none)
    | _ => .fault
  | .mk .JString v =>
    match v with
    | .string s => .ret ("\"" ++ s ++ "\"", none)
    | _ => .fault
  | .mk .JBool v =>
    match v with
    | .bool b => .ret (if b then "true" else "false", none)
    | _ => .fault
  | .mk .JNumber v =>
    match v with
    | .float64 f => .ret (FormatFloat f, none)
    | _ => .fault
  | .mk .JNull _ => .ret ("null", none)
/-- The loop of `Marshal` over a slice, with the text so far and the comma flag. -/
def marshalArray (FormatFloat : float64 → String) :
    List JsonNode → String → Bool → Outcome (String × error)
  | [], str, _ => .ret (str, none)
  | v :: rest, str, commaFlag =>
    match Marshal FormatFloat v with
    | .fault => .fault
    | .ret (_, some e) => .ret ("", some e)
    | .ret (tstr, none) =>
      marshalArray FormatFloat rest ((if commaFlag then str ++ "," else str) ++ tstr) true
/-- The loop of `Marshal` over a map, with the text so far and the comma flag. -/
def marshalObject (FormatFloat : float64 → String) :
    List (String × JsonNode) → String → Bool → Outcome (String × error)
  | [], str, _ => .ret (str, none)
  | (k, v) :: rest, str, commaFlag =>
    match Marshal FormatFloat v with
    | .fault => .fault
    | .ret (_, some e) => .ret ("", some e)
    | .ret (tstr, none) =>
      marshalObject FormatFloat rest
        ((if commaFlag then str ++ "," else str) ++ "\"" ++ k ++ "\":" ++ tstr) true
end

/-! ## JSON text at the boundary -/

/-- A hexadecimal digit, in lower case. -/
def hexDigit (n : Nat) : Char :=
  if n < 10 then Char.ofNat (48 + n) else Char.ofNat (87 + n)

/-- The JSON escape of one character of a string (RFC 8259, section 7): the double
quote and the backslash take a backslash, a control character below `0x20` its short
form or `\u00XX`, and any other character stands for itself. -/
def jsonEscapeChar (c : Char) : String :=
  if c.toNat = 34 then "\\\""
  else if c.toNat = 92 then "\\\\"
  else if c.toNat = 8 then "\\b"
  else if c.toNat = 12 then "\\f"
  else if c.toNat = 10 then "\\n"
  else if c.toNat = 13 then "\\r"
  else if c.toNat = 9 then "\\t"
  else if c.toNat < 32 then
    "\\u00" ++ String.singleton (hexDigit (c.toNat / 16)) ++
      String.singleton (hexDigit (c.toNat % 16))
  else String.singleton c

/-- The JSON string literal of `s`: a double quote, the escaped characters of `s`, a
double quote. -/
def jsonQuote (s : String) : String :=
  "\"" ++ String.join (s.toList.map jsonEscapeChar) ++ "\""

/-- The value of a hexadecimal digit. -/
def hexVal (c : Char) : Option Nat :=
  if 48 ≤ c.toNat ∧ c.toNat ≤ 57 then some (c.toNat - 48)
  else if 97 ≤ c.toNat ∧ c.toNat ≤ 102 then some (c.toNat - 87)
  else if 65 ≤ c.toNat ∧ c.toNat ≤ 70 then some (c.toNat - 55)
  else none

/-- The code unit written by four hexadecimal digits. -/
def hex4 (a b c d : Char) : Option Nat :=
  match hexVal a, hexVal b, hexVal c, hexVal d with
  | some a, some b, some c, some d => some (((a * 16 + b) * 16 + c) * 16 + d)
  | _, _, _, _ => none

/-- JSON white space: space, tab, line feed, carriage return. -/
def isJsonSpace (c : Char) : Bool :=
  c.toNat = 32 || c.toNat = 9 || c.toNat = 10 || c.toNat = 13

/-- The characters of a JSON string literal after its opening quote, read up to the
closing quote, after which only white space may follow (RFC 8259, section 7).  An
unescaped control character, an unknown escape or a missing closing quote refuse the
text; a `\u` escape of a lone surrogate reads as U+FFFD, as the decoder of the Go library
does.  Each step consumes a character, so a fuel of the length of the text suffices. -/
def decodeStringChars : Nat → List Char → List Char → Option String
  | 0, _, _ => none
  | _ + 1, [], _ => none
  | fuel + 1, c :: rest, acc =>
    if c.toNat = 34 then
      if rest.all isJsonSpace then some (String.mk acc.reverse) else none
    else if c.toNat = 92 then
      match rest with
      | [] => none
      | e :: rest1 =>
        if e.toNat = 34 then decodeStringChars fuel rest1 (Char.ofNat 34 :: acc)
        else if e.toNat = 92 then decodeStringChars fuel rest1 (Char.ofNat 92 :: acc)
        else if e.toNat = 47 then decodeStringChars fuel rest1 (Char.ofNat 47 :: acc)
        else if e.toNat = 98 then decodeStringChars fuel rest1 (Char.ofNat 8 :: acc)
        else if e.toNat = 102 then decodeStringChars fuel rest1 (Char.ofNat 12 :: acc)
        else if e.toNat = 110 then decodeStringChars fuel rest1 (Char.ofNat 10 :: acc)
        else if e.toNat = 114 then decodeStringChars fuel rest1 (Char.ofNat 13 :: acc)
        else if e.toNat = 116 then decodeStringChars fuel rest1 (Char.ofNat 9 :: acc)
        else if e.toNat = 117 then
          match rest1 with
          | h1 :: h2 :: h3 :: h4 :: rest2 =>
            match hex4 h1 h2 h3 h4 with
            | none => none
            | some n =>
              if 0xD800 ≤ n ∧ n < 0xDC00 then
                match rest2 with
                | b :: u :: l1 :: l2 :: l3 :: l4 :: rest3 =>
                  match hex4 l1 l2 l3 l4 with
                  | some m =>
                    if b.toNat = 92 ∧ u.toNat = 117 ∧ 0xDC00 ≤ m ∧ m < 0xE000 then
                      decodeStringChars fuel rest3
                        (Char.ofNat (0x10000 + (n - 0xD800) * 0x400 + (m - 0xDC00)) :: acc)
                    else decodeStringChars fuel rest2 (Char.ofNat 0xFFFD :: acc)
                  | none => decodeStringChars fuel rest2 (Char.ofNat 0xFFFD :: acc)
                | _ => decodeStringChars fuel rest2 (Char.ofNat 0xFFFD :: acc)
              else if 0xDC00 ≤ n ∧ n < 0xE000 then
                decodeStringChars fuel rest2 (Char.ofNat 0xFFFD :: acc)
              else decodeStringChars fuel rest2 (Char.ofNat n :: acc)
          | _ => none
        else none
    else if c.toNat < 32 then none
    else decodeStringChars fuel rest (c :: acc)

/-- A conformant JSON decoder on the texts whose value is a string: leading white space,
then one string literal, then white space.  Every other text is refused here, also the
texts of the other JSON values, which this fragment does not read. -/
def decodeStringText (body : String) : GoValue × error :=
  match body.toList.dropWhile isJsonSpace with
  | c :: rest =>
    if c.toNat = 34 then
      match decodeStringChars (rest.length + 1) rest [] with
      | some s => (.string s, none)
      | none => (.nil, some "invalid character in string literal")
    else (.nil, some "not a string literal")
  | [] => (.nil, some "unexpected end of JSON input")

/-! ## Reference rendering and visiting order -/

mutual
/-- The reference rendering of a tree: `null`, `true` or `false`, the number as the
library prints it, the string between double quotes, an Array as its element renderings
joined by single commas between square brackets, an Object as its `"key":rendering` pairs
joined by single commas between braces. -/
def render (FormatFloat : float64 → String) : JsonNode → String
  | .mk .JNull _ => "null"
  | .mk .JBool (.bool b) => if b then "true" else "false"
  | .mk .JNumber (.float64 f) => FormatFloat f
  | .mk .JString (.string s) => "\"" ++ s ++ "\""
  | .mk .JArray (.JArrayValue xs) =>
    "[" ++ String.intercalate "," (renderList FormatFloat xs) ++ "]"
  | .mk .JObject (.JObjectValue m) =>
    "\x7b" ++ String.intercalate "," (renderEntries FormatFloat m) ++ "\x7d"
  | _ => ""
/-- The renderings of the elements of a slice, in index order. -/
def renderList (FormatFloat : float64 → String) : List JsonNode → List String
  | [] => []
  | x :: xs => render FormatFloat x :: renderList FormatFloat xs
/-- The `"key":rendering` pairs of the entries of a map, each entry once. -/
def renderEntries (FormatFloat : float64 → String) : List (String × JsonNode) → List String
  | [] => []
  | (k, x) :: m => ("\"" ++ k ++ "\":" ++ render FormatFloat x) :: renderEntries FormatFloat m
end

/-- Calling a visitor once on each item of a list, in order: the state of the visitor
after the last call, and the nodes it left, in the order of the calls. -/
def visitAll {σ : Type} (fn : σ → GoValue → JsonNode → σ × JsonNode)
    (items : List (GoValue × JsonNode)) (s : σ) : σ × List JsonNode :=
  items.foldl (fun acc it => ((fn acc.1 it.1 it.2).1, acc.2 ++ [(fn acc.1 it.1 it.2).2]))
    (s, [])

/-- A visitor that records each call and, like the one of `TestIteratorObject`, sets the
child under the key `"Age"` to 12. -/
def ageVisitor (log : List (GoValue × JsonNode)) (k : GoValue) (v : JsonNode) :
    List (GoValue × JsonNode) × JsonNode :=
  match k with
  | .string "Age" => (log ++ [(k, v)], (Set v (.int 12) []).1)
  | _ => (log ++ [(k, v)], v)

/-- Two path segments of the same type: both string keys, or both `int` indices. -/
def sameKind : GoValue → GoValue → Bool
  | .string _, .string _ => true
  | .int _, .int _ => true
  | _, _ => false

/-! ## The pointer-level embedding

Where two live nodes share storage, the trees above do not tell what happens: the same
methods are embedded once more over a store of node cells, maps and backing arrays, in
which a `*JsonNode` is an address, a `JObjectValue` a reference to a map, and a
`JArrayValue` a slice header (backing array and length; the capacity is the size of the
backing array).  The size a grown backing array gets is left to the run-time by the
language, and is the parameter `grow` here.  A method returns the store after the call
next to its Go results; a panic leaves no store to speak of. -/

namespace Heap

/-- A Go `interface{}` value at pointer level. -/
inductive Value
  | nil
  | bool (b : Bool)
  | float64 (f : float64)
  | string (s : String)
  | int (i : Int)
  | slice (xs : List GoValue)
  | gomap (m : List (String × GoValue))
  | JArrayValue (arr : Nat) (len : Nat)
  | JObjectValue (map : Nat)
  | ptr (p : Option Nat)
  | other (typeName : String) (kind : Kind)

/-- The struct `JsonNode` as it lies in memory. -/
structure JsonNode where
  nodeType : jsonType
  value : Value

/-- The memory the package works on: node cells by address, maps by reference, backing
arrays of slices by reference (an unused slot holds the nil pointer). -/
structure Store where
  nodes : List JsonNode
  maps : List (List (String × Nat))
  arrays : List (List (Option Nat))

/-- The function `reflect.TypeOf` on pointer-level values. -/
def TypeOf : Value → Option reflectType
  | .nil => none
  | .bool _ => some ⟨"bool", .Other⟩
  | .float64 _ => some ⟨"float64", .Other⟩
  | .string _ => some ⟨"string", .String⟩
  | .int _ => some ⟨"int", .Int⟩
  | .slice _ => some ⟨"[]interface \x7b\x7d", .Other⟩
  | .gomap _ => some ⟨"map[string]interface \x7b\x7d", .Other⟩
  | .JArrayValue _ _ => some ⟨"jsonhandler.JArrayValue", .Other⟩
  | .JObjectValue _ => some ⟨"jsonhandler.JObjectValue", .Other⟩
  | .ptr _ => some ⟨"*jsonhandler.JsonNode", .Other⟩
  | .other n k => some ⟨n, k⟩

/-- The function `typeToJsonType` on pointer-level values. -/
def typeToJsonType (f : Value) : jsonType × error :=
  match f with
  | .slice _ => (.JArray, none)
  | .gomap _ => (.JObject, none)
  | .bool _ => (.JBool, none)
  | .float64 _ => (.JNumber, none)
  | .string _ => (.JString, none)
  | .nil => (.JNull, none)
  | _ => (.JNull, some "wrong type")

/-- Map index expression `m[k]`. -/
def mapGet : List (String × Nat) → String → Option Nat
  | [], _ => none
  | (k', x) :: m, k => if k' = k then some x else mapGet m k

/-- Map assignment `m[k] = x`. -/
def mapSet : List (String × Nat) → String → Nat → List (String × Nat)
  | [], k, x => [(k, x)]
  | (k', y) :: m, k, x => if k' = k then (k, x) :: m else (k', y) :: mapSet m k x

/-- The builtin `delete(m, k)`. -/
def mapDelete : List (String × Nat) → String → List (String × Nat)
  | [], _ => []
  | (k', y) :: m, k => if k' = k then mapDelete m k else (k', y) :: mapDelete m k

/-- Storing a cell at an address. -/
def Store.setNode (h : Store) (a : Nat) (c : JsonNode) : Store :=
  { h with nodes := h.nodes.set a c }

/-- Storing a map at a reference. -/
def Store.setMap (h : Store) (r : Nat) (m : List (String × Nat)) : Store :=
  { h with maps := h.maps.set r m }

/-- The function `NewJsonNode`: a fresh Null cell, at the next free address. -/
def NewJsonNode (h : Store) : Store × Nat :=
  ({ h with nodes := h.nodes ++ [⟨.JNull, .nil⟩] }, h.nodes.length)

/-- The builtin `append(s, x)` on the slice with backing array `arr` and length `len`:
in place when the capacity allows, else into a fresh backing array of the capacity the
run-time picks.  The result is the store and the header of the new slice. -/
def append (grow : Nat → Nat) (h : Store) (arr len : Nat) (x : Option Nat) :
    Outcome (Store × Nat × Nat) :=
  match h.arrays[arr]? with
  | none => .fault
  | some b =>
    if len < b.length then
      .ret ({ h with arrays := h.arrays.set arr (b.set len x) }, arr, len + 1)
    else
      .ret ({ h with arrays := h.arrays ++
          [b.take len ++ [x] ++ List.replicate (grow (len + 1) - (len + 1)) none] },
        h.arrays.length, len + 1)

/-- The method `getNextNode` at pointer level. -/
def getNextNode (h : Store) (node : Option Nat) (arg : GoValue) :
    Outcome (Option Nat × error) :=
  match arg with
  | .string k =>
    match node with
    | none => .fault
    | some a =>
      match h.nodes[a]? with
      | none => .fault
      | some n =>
        if n.nodeType = .JObject then
          match n.value with
          | .JObjectValue r =>
            match h.maps[r]? with
            | none => .fault
            | some m => .ret (mapGet m k, none)
          | _ => .fault
        else .ret (none, some "is not a json object")
  | .int i =>
    match node with
    | none => .fault
    | some a =>
      match h.nodes[a]? with
      | none => .fault
      | some n =>
        if n.nodeType = .JArray then
          match n.value with
          | .JArrayValue arr len =>
            match h.arrays[arr]? with
            | none => .fault
            | some b =>
              if 0 ≤ i ∧ i < len then
                match b[i.toNat]? with
                | none => .fault
                | some p => .ret (p, none)
              else .fault
          | _ => .fault
        else .ret (none, some "is not a json array")
  | _ =>
    match jsonhandler.TypeOf arg with
    | none => .fault
    | some t => .ret (none, some ("key is not an acceptable type.type is " ++ t.name))

/-- The method `Get` at pointer level. -/
def Get (h : Store) (node : Option Nat) (args : List GoValue) :
    Outcome (Option Nat × error) :=
  match args with
  | [] => .ret (none, some "wrong type")
  | [arg] => getNextNode h node arg
  | arg :: arg2 :: rest =>
    match getNextNode h node arg with
    | .fault => .fault
    | .ret (firstNode, err) =>
      if err ≠ none then .ret (none, err) else Get h firstNode (arg2 :: rest)

/-- The method `GetString` at pointer level. -/
def GetString (h : Store) (node : Nat) (args : List GoValue) : Outcome (String × error) :=
  match Get h (some node) args with
  | .fault => .fault
  | .ret (none, _) => .fault
  | .ret (some r, e) =>
    match h.nodes[r]? with
    | none => .fault
    | some c =>
      if c.nodeType ≠ .JString then .ret ("", some "node is not string type")
      else
        match c.value with
        | .string s => .ret (s, e)
        | _ => .fault

/-- The method `GetBool` at pointer level. -/
def GetBool (h : Store) (node : Nat) (args : List GoValue) : Outcome (Bool × error) :=
  match Get h (some node) args with
  | .fault => .fault
  | .ret (none, _) => .fault
  | .ret (some r, e) =>
    match h.nodes[r]? with
    | none => .fault
    | some c =>
      if c.nodeType ≠ .JBool then .ret (false, some "node is not bool type")
      else
        match c.value with
        | .bool b => .ret (b, e)
        | _ => .fault

/-- The extension loop of `getOrAddNextNode`: each iteration makes a fresh Null cell and
appends its address to the slice the node holds at that moment. -/
def extend (grow : Nat → Nat) (node : Nat) : Nat → Store → Outcome Store
  | 0, h => .ret h
  | n + 1, h =>
    match NewJsonNode h with
    | (h, newNode) =>
      match h.nodes[node]? with
      | some ⟨t, .JArrayValue arr len⟩ =>
        match append grow h arr len (some newNode) with
        | .fault => .fault
        | .ret (h, arr, len) => extend grow node n (h.setNode node ⟨t, .JArrayValue arr len⟩)
      | _ => .fault

/-- The branch of `getOrAddNextNode` for a string segment on a node tagged Object. -/
def getOrAddKey (h : Store) (node : Nat) (k : String) :
    Outcome (Store × Option Nat × error) :=
  match h.nodes[node]? with
  | some ⟨_, .JObjectValue r⟩ =>
    match h.maps[r]? with
    | none => .fault
    | some m =>
      match mapGet m k with
      | some c => .ret (h, some c, none)
      | none =>
        match NewJsonNode h with
        | (h, newNode) => .ret (h.setMap r (mapSet m k newNode), some newNode, none)
  | _ => .fault

/-- The branch of `getOrAddNextNode` for an `int` segment on a node tagged Array. -/
def getOrAddIndex (grow : Nat → Nat) (h : Store) (node : Nat) (i : Int) :
    Outcome (Store × Option Nat × error) :=
  match h.nodes[node]? with
  | some ⟨_, .JArrayValue _ len⟩ =>
    if i < 0 then .ret (h, none, some "index can not < 0")
    else
      match (if i ≥ len then extend grow node (i.toNat + 1 - len) h else .ret h) with
      | .fault => .fault
      | .ret h =>
        match h.nodes[node]? with
        | some ⟨_, .JArrayValue arr _⟩ =>
          match h.arrays[arr]? with
          | none => .fault
          | some b =>
            match b[i.toNat]? with
            | none => .fault
            | some p => .ret (h, p, none)
        | _ => .fault
  | _ => .fault

/-- The method `getOrAddNextNode` at pointer level.  A node of the wrong tag is first
overwritten with a fresh empty map or slice, then treated as one of the right tag. -/
def getOrAddNextNode (grow : Nat → Nat) (h : Store) (node : Nat) (arg : GoValue) :
    Outcome (Store × Option Nat × error) :=
  match arg with
  | .string k =>
    match h.nodes[node]? with
    | none => .fault
    | some n =>
      if n.nodeType = .JObject then getOrAddKey h node k
      else
        getOrAddKey
          { (h.setNode node ⟨.JObject, .JObjectValue h.maps.length⟩) with
            maps := h.maps ++ [[]] } node k
  | .int i =>
    match h.nodes[node]? with
    | none => .fault
    | some n =>
      if n.nodeType = .JArray then getOrAddIndex grow h node i
      else
        getOrAddIndex grow
          { (h.setNode node ⟨.JArray, .JArrayValue h.arrays.length 0⟩) with
            arrays := h.arrays ++ [[]] } node i
  | _ =>
    match jsonhandler.TypeOf arg with
    | none => .fault
    | some t => .ret (h, none, some ("key is not an acceptable type.type is " ++ t.name))

/-- The first statement of `Set` at pointer level. -/
def intToFloat (value : Value) : Outcome Value :=
  match TypeOf value with
  | none => .fault
  | some t =>
    if t.kind = .Int then
      match value with
      | .int i => .ret (.float64 (float64OfInt i))
      | _ => .fault
    else .ret value

/-- The method `Set` called with no path segment, at pointer level: for a `*JsonNode`
value the cell takes the tag and the payload of the cell pointed to, as they are. -/
def setValue (h : Store) (node : Nat) (value : Value) :
    Outcome (Store × Option Nat × error) :=
  match intToFloat value with
  | .fault => .fault
  | .ret value =>
    match h.nodes[node]? with
    | none => .fault
    | some _ =>
      match value with
      | .ptr none => .fault
      | .ptr (some p) =>
        match h.nodes[p]? with
        | none => .fault
        | some c => .ret (h.setNode node ⟨c.nodeType, c.value⟩, some node, none)
      | _ =>
        .ret (h.setNode node ⟨(typeToJsonType value).1, value⟩, some node,
          (typeToJsonType value).2)

/-- The method `Set` called on the nil pointer with at least two path segments, at
pointer level: it returns only when `getOrAddNextNode` fails before touching its
receiver. -/
def nilSet (value : Value) (args : List GoValue) : Outcome (Option Nat × error) :=
  match intToFloat value with
  | .fault => .fault
  | .ret _ =>
    match args with
    | arg :: _ :: _ =>
      match arg with
      | .string _ => .fault
      | .int _ => .fault
      | _ =>
        match jsonhandler.TypeOf arg with
        | none => .fault
        | some t => .ret (none, some ("key is not an acceptable type.type is " ++ t.name))
    | _ => .fault

/-- The method `Set` at pointer level. -/
def Set (grow : Nat → Nat) (h : Store) (node : Nat) (value : Value) (args : List GoValue) :
    Outcome (Store × Option Nat × error) :=
  match args with
  | [] => setValue h node value
  | [arg] =>
    match intToFloat value with
    | .fault => .fault
    | .ret value =>
      match getOrAddNextNode grow h node arg with
      | .fault => .fault
      | .ret (_, none, _) => .fault
      | .ret (h, some firstNode, _) => setValue h firstNode value
  | arg :: arg2 :: rest =>
    match intToFloat value with
    | .fault => .fault
    | .ret value =>
      match getOrAddNextNode grow h node arg with
      | .fault => .fault
      | .ret (h, firstNode, err) =>
        if err ≠ none then .ret (h, none, err)
        else
          match firstNode with
          | none =>
            match nilSet value (arg2 :: rest) with
            | .fault => .fault
            | .ret (r, e) => .ret (h, r, e)
          | some firstNode => Set grow h firstNode value (arg2 :: rest)

/-- The method `Copy` at pointer level. -/
def Copy (h : Store) (node : Nat) (copyFrom : Option Nat) : Outcome (Store × error) :=
  match copyFrom with
  | none => .fault
  | some p =>
    match h.nodes[p]?, h.nodes[node]? with
    | some c, some _ => .ret (h.setNode node ⟨c.nodeType, c.value⟩, none)
    | _, _ => .fault

/-- The method `Delete` called with one path segment, at pointer level.  The Array
branch shifts the elements after the index down inside the backing array and shortens
the slice of the node by one. -/
def deleteChild (h : Store) (node : Nat) (arg : GoValue) : Outcome (Store × Bool × error) :=
  match h.nodes[node]? with
  | none => .fault
  | some n =>
    match n.nodeType with
    | .JObject =>
      match jsonhandler.TypeOf arg with
      | none => .fault
      | some t =>
        if t.kind = .String then
          match arg with
          | .string key =>
            match n.value with
            | .JObjectValue r =>
              match h.maps[r]? with
              | none => .fault
              | some m =>
                match mapGet m key with
                | some _ => .ret (h.setMap r (mapDelete m key), true, none)
                | none => .ret (h, false, some "there is no json info here")
            | _ => .fault
          | _ => .fault
        else .ret (h, false, some "there is no json info here")
    | .JArray =>
      match jsonhandler.TypeOf arg with
      | none => .fault
      | some t =>
        if t.kind = .Int then
          match arg with
          | .int index =>
            if index < 0 then .ret (h, false, some "there is no json info here")
            else
              match n.value with
              | .JArrayValue arr len =>
                if index < len then
                  match h.arrays[arr]? with
                  | none => .fault
                  | some b =>
                    .ret ({ (h.setNode node ⟨n.nodeType, .JArrayValue arr (len - 1)⟩) with
                        arrays := h.arrays.set arr
                          ((b.take len).eraseIdx index.toNat ++ b.drop (len - 1)) },
                      false, some "there is no json info here")
                else .ret (h, false, some "there is no json info here")
              | _ => .fault
          | _ => .fault
        else .ret (h, false, some "there is no json info here")
    | _ => .ret (h, false, some "there is no json info here")

/-- The method `Delete` at pointer level. -/
def Delete (h : Store) (node : Nat) (args : List GoValue) : Outcome (Store × Bool × error) :=
  match args with
  | [] =>
    match h.nodes[node]? with
    | none => .fault
    | some _ =>
      .ret (h.setNode node ⟨.JNull, .nil⟩, false, some "can not delete without parameter")
  | [arg] => deleteChild h node arg
  | arg :: arg2 :: rest =>
    match Get h (some node) (arg :: arg2 :: rest).dropLast with
    | .fault => .fault
    | .ret (r, err) =>
      if err ≠ none then .ret (h, false, some "there is no json info here")
      else
        match r with
        | none => .fault
        | some r => deleteChild h r ((arg2 :: rest).getLast (List.cons_ne_nil arg2 rest))

/-- The store after the two `Unmarshal` calls of `TestSetJsonObject`: `node` at address
0 with the object of the tests, `node2` at address 6 with
`{"Name":"Alice","Body":"Hello","Time":1294706395881547000}`. -/
def testStore : Store where
  nodes := [
    ⟨.JObject, .JObjectValue 0⟩,
    ⟨.JString, .string "Wednesday"⟩,
    ⟨.JNumber, .float64 (float64OfInt 6)⟩,
    ⟨.JArray, .JArrayValue 0 2⟩,
    ⟨.JString, .string "Gomez"⟩,
    ⟨.JString, .string "Morticia"⟩,
    ⟨.JObject, .JObjectValue 1⟩,
    ⟨.JString, .string "Alice"⟩,
    ⟨.JString, .string "Hello"⟩,
    ⟨.JNumber, .float64 (float64OfInt 1294706395881547000)⟩]
  maps := [
    [("Name", 1), ("Age", 2), ("Parents", 3)],
    [("Name", 7), ("Body", 8), ("Time", 9)]]
  arrays := [[some 4, some 5]]

/-- A scalar value handed to `Set`: a `bool`, a `float64`, a `string` or a native `int`. -/
def isScalar : Value → Bool
  | .bool _ => true
  | .float64 _ => true
  | .string _ => true
  | .int _ => true
  | _ => false

/-- The cell that holds exactly the scalar `v`; a native `int` is held as the Number
`float64(i)`. -/
def cellOf : Value → JsonNode
  | .bool b => ⟨.JBool, .bool b⟩
  | .float64 f => ⟨.JNumber, .float64 f⟩
  | .string s => ⟨.JString, .string s⟩
  | .int i => ⟨.JNumber, .float64 (float64OfInt i)⟩
  | _ => ⟨.JNull, .nil⟩

/-- The store of a run: the store an operation returned, or the store before it when it
panicked. -/
def after {α : Type} (h : Store) (r : Outcome (Store × α)) : Store :=
  match r with
  | .ret (h', _) => h'
  | .fault => h

/-- The store of `TestSetJsonObject` after `node.Set(node2, "Other")`. -/
def storeAssigned (grow : Nat → Nat) : Store :=
  after testStore (Set grow testStore 0 (.ptr (some 6)) [.string "Other"])

/-- The store of `TestSetJsonObject` after `node.Set(node2, "Other")` and
`node.Set(true, "Other", "Body")`. -/
def storeWritten (grow : Nat → Nat) : Store :=
  after (storeAssigned grow)
    (Set grow (storeAssigned grow) 0 (.bool true) [.string "Other", .string "Body"])

/-- The store of the tests after the cell at address 7 took the Array `Parents` (address
3) by `Copy` and `Delete(0)` was called on it. -/
def storeShifted : Store :=
  after (after testStore (Copy testStore 7 (some 3)))
    (Delete (after testStore (Copy testStore 7 (some 3))) 7 [.int 0])

/-- The store `storeShifted` after `Set("x", 0)` through the Array `Parents` (address 3),
whose two elements are by then one and the same cell. -/
def storeShiftedWritten (grow : Nat → Nat) : Store :=
  after storeShifted (Set grow storeShifted 3 (.string "x") [.int 0])

end Heap

/-! # Properties -/

/-! ## Maps and slices -/

/-- After `m[k] = x`, the index expression `m[k]` gives `x`. -/
theorem mapGet_mapSet_self (m : List (String × JsonNode)) (k : String) (x : JsonNode) :
    mapGet (mapSet m k x) k = some x := by
  induction m with
  | nil => simp [mapSet, mapGet]
  | cons e m ih =>
    obtain ⟨k', y⟩ := e
    by_cases h : k' = k
    · simp [mapSet, mapGet, h]
    · simp [mapSet, mapGet, h, ih]

/-- Assigning to a key the value it already has leaves the map as it is. -/
theorem mapSet_of_mapGet (m : List (String × JsonNode)) (k : String) (x : JsonNode)
    (h : mapGet m k = some x) : mapSet m k x = m := by
  induction m with
  | nil => simp [mapGet] at h
  | cons e m ih =>
    obtain ⟨k', y⟩ := e
    by_cases hk : k' = k
    · simp [mapGet, hk] at h
      simp [mapSet, hk, h]
    · simp [mapGet, hk] at h
      simp [mapSet, hk, ih h]

/-- The extension loop appends `n` Null nodes. -/
theorem appendNulls_eq (xs : List JsonNode) (n : Nat) :
    appendNulls xs n = xs ++ List.replicate n NewJsonNode := by
  induction n generalizing xs with
  | zero => simp [appendNulls]
  | succ n ih =>
    rw [appendNulls, ih, List.append_assoc]
    rfl

/-- A value found in a map of consistent nodes is consistent. -/
theorem consistentEntries_mapGet (m : List (String × JsonNode)) (k : String) (c : JsonNode)
    (hm : consistentEntries m = true) (h : mapGet m k = some c) : consistent c = true := by
  induction m with
  | nil => simp [mapGet] at h
  | cons e m ih =>
    obtain ⟨k', y⟩ := e
    simp only [consistentEntries, Bool.and_eq_true] at hm
    by_cases hk : k' = k
    · simp [mapGet, hk] at h
      exact h ▸ hm.1
    · simp [mapGet, hk] at h
      exact ih hm.2 h

/-- A slice is consistent exactly when each of its nodes is. -/
theorem consistentList_iff (xs : List JsonNode) :
    consistentList xs = true ↔ ∀ x ∈ xs, consistent x = true := by
  induction xs with
  | nil => simp [consistentList]
  | cons x xs ih => simp [consistentList, ih]

/-- A fresh node is consistent. -/
theorem consistent_NewJsonNode : consistent NewJsonNode = true := rfl

/-! ## Mutation steps -/

/-- A scalar passes the conversion at the head of `Set`, and `Set` with no path segment
then turns any node into the node holding that scalar. -/
theorem intToFloat_scalar (v : GoValue) (hv : isScalar v = true) :
    ∃ w, intToFloat v = .ret w ∧ isScalar w = true ∧ nodeOf w = nodeOf v ∧
      intToFloat w = .ret w ∧
      ∀ c, setValue c w = (nodeOf v, .ret (some (nodeOf v), none)) := by
  cases v <;> simp [isScalar] at hv
  case bool b => exact ⟨.bool b, rfl, rfl, rfl, rfl, fun _ => rfl⟩
  case float64 f => exact ⟨.float64 f, rfl, rfl, rfl, rfl, fun _ => rfl⟩
  case string s => exact ⟨.string s, rfl, rfl, rfl, rfl, fun _ => rfl⟩
  case int i => exact ⟨.float64 (float64OfInt i), rfl, rfl, rfl, rfl, fun _ => rfl⟩

/-- A consistent node tagged Object holds a `JObjectValue` of consistent nodes. -/
theorem consistent_object (v : GoValue) (h : consistent (.mk .JObject v) = true) :
    ∃ m, v = .JObjectValue m ∧ consistentEntries m = true := by
  cases v <;> simp [consistent] at h
  exact ⟨_, rfl, h⟩

/-- A consistent node tagged Array holds a `JArrayValue` of consistent nodes. -/
theorem consistent_array (v : GoValue) (h : consistent (.mk .JArray v) = true) :
    ∃ xs, v = .JArrayValue xs ∧ consistentList xs = true := by
  cases v <;> simp [consistent] at h
  exact ⟨_, rfl, h⟩

/-- On an Array, `getOrAddNextNode` with a non-negative index pads the slice with Null
nodes up to that index and returns the element there. -/
theorem getOrAddNextNode_array (xs : List JsonNode) (n : Nat) :
    getOrAddNextNode (.mk .JArray (.JArrayValue xs)) (.int n) =
      (.mk .JArray (.JArrayValue (xs ++ List.replicate (n + 1 - xs.length) NewJsonNode)),
        .ret ((xs ++ List.replicate (n + 1 - xs.length) NewJsonNode)[n]?, none)) := by
  by_cases h : xs.length ≤ n
  · simp [getOrAddNextNode, JsonNode.nodeType, JsonNode.value, h, appendNulls_eq]
  · have h0 : n + 1 - xs.length = 0 := by omega
    simp [getOrAddNextNode, JsonNode.nodeType, JsonNode.value, h, h0]

/-- On a node that is not an Array, `getOrAddNextNode` with an `int` segment behaves as
on the empty Array. -/
theorem getOrAddNextNode_int_coerce (t : jsonType) (v : GoValue) (i : Int) (ht : t ≠ .JArray) :
    getOrAddNextNode (.mk t v) (.int i) =
      getOrAddNextNode (.mk .JArray (.JArrayValue [])) (.int i) := by
  simp [getOrAddNextNode, JsonNode.nodeType, JsonNode.value, ht]

/-- On a node that is not an Object, `getOrAddNextNode` with a `string` segment behaves
as on the empty Object. -/
theorem getOrAddNextNode_string_coerce (t : jsonType) (v : GoValue) (k : String)
    (ht : t ≠ .JObject) :
    getOrAddNextNode (.mk t v) (.string k) =
      getOrAddNextNode (.mk .JObject (.JObjectValue [])) (.string k) := by
  simp [getOrAddNextNode, JsonNode.nodeType, JsonNode.value, ht]

/-- A slice padded up to index `n` has an element at `n`: the old one, or a Null node. -/
theorem getElem?_padded (xs : List JsonNode) (n : Nat) :
    ∃ c, (xs ++ List.replicate (n + 1 - xs.length) NewJsonNode)[n]? = some c ∧
      (consistentList xs = true → consistent c = true) := by
  by_cases h : n < xs.length
  · refine ⟨xs[n], ?_, ?_⟩
    · rw [List.getElem?_append_left h, List.getElem?_eq_getElem h]
    · intro hx
      exact (consistentList_iff xs).1 hx _ (List.getElem_mem h)
  · refine ⟨NewJsonNode, ?_, fun _ => rfl⟩
    rw [List.getElem?_append_right (by omega), List.getElem?_replicate]
    simp
    omega

/-- On a consistent node, `getOrAddNextNode` with a key or a non-negative index returns
a consistent child with a nil error, and that child is what `getNextNode` finds at the
same segment, also after it has been written through. -/
theorem getOrAddNextNode_segment (n : JsonNode) (s : GoValue)
    (hn : consistent n = true) (hs : isSegment s = true) :
    ∃ node1 c, getOrAddNextNode n s = (node1, .ret (some c, none)) ∧ consistent c = true ∧
      ∀ c', getNextNode (some (putChild node1 s c')) s = .ret (some c', none) := by
  obtain ⟨t, v⟩ := n
  cases s <;> simp [isSegment] at hs
  case string k =>
    by_cases ht : t = .JObject
    · subst ht
      obtain ⟨m, rfl, hm⟩ := consistent_object v hn
      cases hg : mapGet m k with
      | some c =>
        refine ⟨.mk .JObject (.JObjectValue m), c, ?_, consistentEntries_mapGet m k c hm hg, ?_⟩
        · simp [getOrAddNextNode, JsonNode.nodeType, JsonNode.value, hg]
        · intro c'
          simp [putChild, getNextNode, JsonNode.nodeType, JsonNode.value, mapGet_mapSet_self]
      | none =>
        refine ⟨.mk .JObject (.JObjectValue (mapSet m k NewJsonNode)), NewJsonNode, ?_, rfl, ?_⟩
        · simp [getOrAddNextNode, JsonNode.nodeType, JsonNode.value, hg, mapGet_mapSet_self]
        · intro c'
          simp [putChild, getNextNode, JsonNode.nodeType, JsonNode.value, mapGet_mapSet_self]
    · refine ⟨.mk .JObject (.JObjectValue [(k, NewJsonNode)]), NewJsonNode, ?_, rfl, ?_⟩
      · simp [getOrAddNextNode, JsonNode.nodeType, JsonNode.value, ht, mapGet, mapSet]
      · intro c'
        simp [putChild, getNextNode, JsonNode.nodeType, JsonNode.value, mapGet_mapSet_self]
  case int i =>
    obtain ⟨k, rfl⟩ := Int.eq_ofNat_of_zero_le hs
    have key : ∀ xs : List JsonNode, consistentList xs = true →
        ∃ node1 c, getOrAddNextNode (.mk .JArray (.JArrayValue xs)) (.int k) =
          (node1, .ret (some c, none)) ∧ consistent c = true ∧
          ∀ c', getNextNode (some (putChild node1 (.int k) c')) (.int k) =
            .ret (some c', none) := by
      intro xs hxs
      obtain ⟨c, hc, hcc⟩ := getElem?_padded xs k
      refine ⟨_, c, by rw [getOrAddNextNode_array, hc], hcc hxs, ?_⟩
      intro c'
      have hlen : k < xs.length + (k + 1 - xs.length) := by omega
      have hlen2 : (k : Int) < ↑xs.length + ↑(k + 1 - xs.length) := by omega
      simp [putChild, getNextNode, JsonNode.nodeType, JsonNode.value, hlen2, hlen]
    by_cases ht : t = .JArray
    · subst ht
      obtain ⟨xs, rfl, hxs⟩ := consistent_array v hn
      exact key xs hxs
    · rw [getOrAddNextNode_int_coerce t v k ht]
      exact key [] rfl

/-- Get-after-set on consistent trees: writing a scalar at a path of keys and
non-negative indices succeeds, and reading the path back gives the node holding it. -/
theorem set_then_get (p : List GoValue) (hp : p ≠ [])
    (hseg : ∀ s ∈ p, isSegment s = true) (n : JsonNode) (v : GoValue)
    (hn : consistent n = true) (hv : isScalar v = true) :
    ∃ n', Set n v p = (n', .ret (some (nodeOf v), none)) ∧
      Get (some n') p = .ret (some (nodeOf v), none) := by
  induction p generalizing n v with
  | nil => exact absurd rfl hp
  | cons arg tail ih =>
    obtain ⟨w, hw, hws, hwn, _, hset⟩ := intToFloat_scalar v hv
    obtain ⟨node1, c, hstep, hc, hget⟩ :=
      getOrAddNextNode_segment n arg hn (hseg arg (by simp))
    cases tail with
    | nil =>
      refine ⟨putChild node1 arg (nodeOf v), ?_, ?_⟩
      · simp [Set, hw, hstep, hset]
      · simp [Get, hget]
    | cons arg2 rest =>
      obtain ⟨c', hc1, hc2⟩ :=
        ih (by simp) (fun s hs => hseg s (List.mem_cons_of_mem _ hs)) c w hc hws
      rw [hwn] at hc1 hc2
      refine ⟨putChild node1 arg c', ?_, ?_⟩
      · simp [Set, hw, hstep, hc1]
      · simp [Get, hget, hc2]

/-! ## Navigation steps -/

/-- The child a segment addresses is what `getNextNode` returns, with a nil error. -/
theorem getNextNode_child (n : JsonNode) (s : GoValue) (c : JsonNode)
    (h : child n s = some c) : getNextNode (some n) s = .ret (some c, none) := by
  obtain ⟨t, v⟩ := n
  cases t <;> cases v <;> cases s <;> simp [child] at h
  case JArray.JArrayValue.int xs i =>
    have hlt : i < xs.length := by
      have := (List.getElem?_eq_some_iff.1 h.2).1
      omega
    simp [getNextNode, JsonNode.nodeType, JsonNode.value, h.1, hlt, h.2]
  case JObject.JObjectValue.string m k =>
    simp [getNextNode, JsonNode.nodeType, JsonNode.value, h]

/-- The method `Get` follows a path of existing children to the descendant it names. -/
theorem Get_descendant (p : List GoValue) (hp : p ≠ []) (n d : JsonNode)
    (hd : descendant n p = some d) : Get (some n) p = .ret (some d, none) := by
  induction p generalizing n with
  | nil => exact absurd rfl hp
  | cons s rest ih =>
    cases hc : child n s with
    | none => simp [descendant, hc] at hd
    | some c =>
      simp only [descendant, hc] at hd
      have hstep := getNextNode_child n s c hc
      cases rest with
      | nil =>
        simp only [descendant, Option.some.injEq] at hd
        simp [Get, hstep, hd]
      | cons s2 rest2 =>
        simp [Get, hstep, ih (by simp) c hd]

/-- Writing through a child pointer leaves the tag of the parent alone. -/
theorem putChild_nodeType (node : JsonNode) (arg : GoValue) (c : JsonNode) :
    (putChild node arg c).nodeType = node.nodeType := by
  obtain ⟨t, v⟩ := node
  cases arg <;> cases v <;> rfl

/-- After `getOrAddNextNode` with a string segment the receiver is tagged Object. -/
theorem getOrAddNextNode_string_tag (n : JsonNode) (k : String) :
    (getOrAddNextNode n (.string k)).1.nodeType = .JObject := by
  obtain ⟨t, v⟩ := n
  by_cases ht : t = .JObject
  · subst ht
    cases v <;> simp [getOrAddNextNode, JsonNode.nodeType, JsonNode.value]
  · simp [getOrAddNextNode, JsonNode.nodeType, JsonNode.value, ht]

/-- After `getOrAddNextNode` with an int segment the receiver is tagged Array. -/
theorem getOrAddNextNode_int_tag (n : JsonNode) (i : Int) :
    (getOrAddNextNode n (.int i)).1.nodeType = .JArray := by
  obtain ⟨t, v⟩ := n
  by_cases ht : t = .JArray
  · subst ht
    by_cases hi : i < 0 <;>
      cases v <;> simp [getOrAddNextNode, JsonNode.nodeType, JsonNode.value, hi]
  · by_cases hi : i < 0 <;>
      simp [getOrAddNextNode, JsonNode.nodeType, JsonNode.value, ht, hi]

/-- After `Set` with a value that passes the conversion of its first statement, the
receiver carries the tag `getOrAddNextNode` gave it for the first segment. -/
theorem Set_root_tag (n : JsonNode) (v w : GoValue) (arg : GoValue) (rest : List GoValue)
    (hw : intToFloat v = .ret w) :
    (Set n v (arg :: rest)).1.nodeType = (getOrAddNextNode n arg).1.nodeType := by
  cases rest with
  | nil =>
    simp only [Set, hw]
    rcases getOrAddNextNode n arg with ⟨node1, _ | _⟩
    · rename_i r
      obtain ⟨_ | c, e⟩ := r
      · rfl
      · simp [putChild_nodeType]
    · rfl
  | cons arg2 rest2 =>
    simp only [Set, hw]
    rcases getOrAddNextNode n arg with ⟨node1, _ | _⟩
    · rename_i r
      obtain ⟨_ | c, e⟩ := r
      · by_cases he : e = none <;> simp [he]
      · by_cases he : e = none <;> simp [he, putChild_nodeType]
    · rfl

/-- Storing at an index the element already there leaves the slice as it is. -/
theorem set_list_of_getElem? (xs : List JsonNode) (k : Nat) (c : JsonNode)
    (h : xs[k]? = some c) : xs.set k c = xs := by
  induction xs generalizing k with
  | nil => rfl
  | cons x xs ih =>
    cases k with
    | zero => simp at h; simp [h]
    | succ k => simp at h; simp [ih k h]

/-- A segment that addresses an existing child makes `getOrAddNextNode` return that
child and leave the node as it is, and writing the child back changes nothing. -/
theorem getOrAddNextNode_child (n : JsonNode) (s : GoValue) (c : JsonNode)
    (h : child n s = some c) :
    getOrAddNextNode n s = (n, .ret (some c, none)) ∧ putChild n s c = n := by
  obtain ⟨t, v⟩ := n
  cases t <;> cases v <;> cases s <;> simp [child] at h
  case JArray.JArrayValue.int xs i =>
    obtain ⟨k, rfl⟩ := Int.eq_ofNat_of_zero_le h.1
    have h2 : xs[k]? = some c := by simpa using h.2
    have hlt : k < xs.length := (List.getElem?_eq_some_iff.1 h2).1
    have h0 : k + 1 - xs.length = 0 := by omega
    refine ⟨?_, ?_⟩
    · rw [getOrAddNextNode_array, h0]
      simp [h2]
    · simp [putChild, set_list_of_getElem? xs k c h2]
  case JObject.JObjectValue.string m k =>
    refine ⟨?_, ?_⟩
    · simp [getOrAddNextNode, JsonNode.nodeType, JsonNode.value, h]
    · simp [putChild, mapSet_of_mapGet m k c h]

/-- The conversion at the head of `Set` changes nothing when applied a second time. -/
theorem intToFloat_idem (v w : GoValue) (h : intToFloat v = .ret w) :
    intToFloat w = .ret w := by
  cases v <;> simp [intToFloat, TypeOf] at h <;> try (subst h; rfl)
  case other name kind =>
    cases kind <;> simp at h <;> subst h <;> rfl

/-- At a segment that fails without touching the node, `getOrAddNextNode` returns a
non-nil error and the node as it was. -/
theorem getOrAddNextNode_failsUntouched (d : JsonNode) (s : GoValue)
    (h : failsUntouched d s = true) :
    ∃ e, getOrAddNextNode d s = (d, .ret (none, some e)) := by
  obtain ⟨t, v⟩ := d
  cases s
  case string => simp [failsUntouched] at h
  case nil => simp [failsUntouched] at h
  case int i =>
    cases t <;> cases v <;> simp [failsUntouched] at h
    exact ⟨"index can not < 0",
      by simp [getOrAddNextNode, JsonNode.nodeType, JsonNode.value, h]⟩
  all_goals exact ⟨_, rfl⟩

/-- A failed `Set` changes nothing when the segments before the failing one address
existing children and the failing segment fails without touching its node. -/
theorem Set_fails_unchanged (pre : List GoValue) (s : GoValue) (rest : List GoValue)
    (n d : JsonNode) (v w : GoValue) (hv : intToFloat v = .ret w)
    (hd : descendant n pre = some d) (hrest : rest ≠ [])
    (hs : failsUntouched d s = true) :
    ∃ e, Set n v (pre ++ s :: rest) = (n, .ret (none, some e)) := by
  induction pre generalizing n v with
  | nil =>
    simp only [descendant, Option.some.injEq] at hd
    subst hd
    obtain ⟨e, he⟩ := getOrAddNextNode_failsUntouched n s hs
    cases rest with
    | nil => exact absurd rfl hrest
    | cons s2 rest2 => exact ⟨e, by simp [Set, hv, he]⟩
  | cons a pre ih =>
    cases hc : child n a with
    | none => simp [descendant, hc] at hd
    | some c =>
      simp only [descendant, hc] at hd
      obtain ⟨hstep, hput⟩ := getOrAddNextNode_child n a c hc
      obtain ⟨e, he⟩ := ih c w (intToFloat_idem v w hv) hd
      refine ⟨e, ?_⟩
      cases htail : pre ++ s :: rest with
      | nil => simp at htail
      | cons s2 rest2 =>
        rw [htail] at he
        rw [List.cons_append, htail]
        simp [Set, hv, hstep, he, hput]

/-- A child of a consistent node is consistent. -/
theorem consistent_child (n c : JsonNode) (s : GoValue) (hn : consistent n = true)
    (h : child n s = some c) : consistent c = true := by
  obtain ⟨_, _, hstep, hc, _⟩ : ∃ node1 c0, getOrAddNextNode n s = (node1, .ret (some c0, none)) ∧
      consistent c0 = true ∧ True := by
    obtain ⟨t, v⟩ := n
    cases t <;> cases v <;> cases s <;> simp [child] at h
    case JArray.JArrayValue.int xs i =>
      have hx : consistentList xs = true := by simpa [consistent] using hn
      exact ⟨_, c, (getOrAddNextNode_child _ _ c (by simp [child, h])).1,
        (consistentList_iff xs).1 hx c (List.getElem?_mem h.2), trivial⟩
    case JObject.JObjectValue.string m k =>
      have hx : consistentEntries m = true := by simpa [consistent] using hn
      exact ⟨_, c, (getOrAddNextNode_child _ _ c (by simp [child, h])).1,
        consistentEntries_mapGet m k c hx h, trivial⟩
  rw [(getOrAddNextNode_child n s c h).1] at hstep
  simp only [Prod.mk.injEq, Outcome.ret.injEq, Option.some.injEq, and_true] at hstep
  rw [hstep.2]
  exact hc

/-! ## Failing calls of `Set` -/

/-- A node of a consistent tree reached by a path is consistent. -/
theorem consistent_descendant (p : List GoValue) (n d : JsonNode)
    (hn : consistent n = true) (h : descendant n p = some d) : consistent d = true := by
  induction p generalizing n with
  | nil =>
    simp only [descendant, Option.some.injEq] at h
    exact h ▸ hn
  | cons a p ih =>
    cases hc : child n a with
    | none => simp [descendant, hc] at h
    | some c =>
      simp only [descendant, hc] at h
      exact ih c (consistent_child n c a hn hc) h

/-- A child written through `putChild` is the child found at the same segment. -/
theorem child_putChild (n c c' : JsonNode) (s : GoValue) (h : child n s = some c) :
    child (putChild n s c') s = some c' := by
  obtain ⟨t, v⟩ := n
  cases t <;> cases v <;> cases s <;> simp [child] at h
  case JArray.JArrayValue.int xs i =>
    have hlt : i.toNat < xs.length := (List.getElem?_eq_some_iff.1 h.2).1
    simp [putChild, child, h.1, hlt]
  case JObject.JObjectValue.string m k =>
    simp [putChild, child, mapGet_mapSet_self]

/-- What `getOrAddNextNode` can do: panic; or return, with a nil error, a child of the
node as it leaves it; or return the nil node with an error, leaving a node at which the
segment fails without touching it. -/
theorem getOrAddNextNode_cases (n : JsonNode) (s : GoValue) :
    (getOrAddNextNode n s).2 = .fault ∨
      (∃ c, (getOrAddNextNode n s).2 = .ret (some c, none) ∧
        child (getOrAddNextNode n s).1 s = some c) ∨
      (∃ e, (getOrAddNextNode n s).2 = .ret (none, some e) ∧
        failsUntouched (getOrAddNextNode n s).1 s = true) := by
  have keyObj : ∀ (m : List (String × JsonNode)) (k : String),
      ∃ c, (getOrAddNextNode (.mk .JObject (.JObjectValue m)) (.string k)).2 =
          .ret (some c, none) ∧
        child (getOrAddNextNode (.mk .JObject (.JObjectValue m)) (.string k)).1 (.string k) =
          some c := by
    intro m k
    cases hg : mapGet m k with
    | some c =>
      exact ⟨c, by simp [getOrAddNextNode, JsonNode.nodeType, JsonNode.value, hg],
        by simp [getOrAddNextNode, JsonNode.nodeType, JsonNode.value, hg, child]⟩
    | none =>
      exact ⟨NewJsonNode,
        by simp [getOrAddNextNode, JsonNode.nodeType, JsonNode.value, hg, mapGet_mapSet_self],
        by simp [getOrAddNextNode, JsonNode.nodeType, JsonNode.value, hg, child,
          mapGet_mapSet_self]⟩
  have keyArr : ∀ (xs : List JsonNode) (i : Int),
      (∃ c, (getOrAddNextNode (.mk .JArray (.JArrayValue xs)) (.int i)).2 =
          .ret (some c, none) ∧
        child (getOrAddNextNode (.mk .JArray (.JArrayValue xs)) (.int i)).1 (.int i) =
          some c) ∨
      (∃ e, (getOrAddNextNode (.mk .JArray (.JArrayValue xs)) (.int i)).2 =
          .ret (none, some e) ∧
        failsUntouched (getOrAddNextNode (.mk .JArray (.JArrayValue xs)) (.int i)).1 (.int i) =
          true) := by
    intro xs i
    by_cases hi : i < 0
    · exact Or.inr ⟨"index can not < 0",
        by simp [getOrAddNextNode, JsonNode.nodeType, JsonNode.value, hi],
        by simp [getOrAddNextNode, JsonNode.nodeType, JsonNode.value, hi, failsUntouched]⟩
    · obtain ⟨k, rfl⟩ := Int.eq_ofNat_of_zero_le (not_lt.1 hi)
      obtain ⟨c, hc, _⟩ := getElem?_padded xs k
      refine Or.inl ⟨c, ?_, ?_⟩
      · rw [getOrAddNextNode_array, hc]
      · rw [getOrAddNextNode_array]
        simp [child, hc]
  obtain ⟨t, v⟩ := n
  cases s
  case string k =>
    by_cases ht : t = .JObject
    · subst ht
      cases v with
      | JObjectValue m => exact Or.inr (Or.inl (keyObj m k))
      | _ => exact Or.inl rfl
    · rw [getOrAddNextNode_string_coerce t v k ht]
      exact Or.inr (Or.inl (keyObj [] k))
  case int i =>
    by_cases ht : t = .JArray
    · subst ht
      cases v with
      | JArrayValue xs => exact Or.inr (keyArr xs i)
      | _ => exact Or.inl rfl
    · rw [getOrAddNextNode_int_coerce t v i ht]
      exact Or.inr (keyArr [] i)
  case nil => exact Or.inl rfl
  all_goals exact Or.inr (Or.inr ⟨_, rfl, rfl⟩)

/-- When `Set` with no path segment returns an error, the node it leaves is tagged Null
over the rejected value: its tag and payload do not agree. -/
theorem setValue_error (c : JsonNode) (w : GoValue) (c' : JsonNode) (r : Option JsonNode)
    (e : String) (h : setValue c w = (c', .ret (r, some e))) : consistent c' = false := by
  cases w <;> simp [setValue, intToFloat, TypeOf, typeToJsonType] at h
  case JArrayValue xs => rw [← h.1]; rfl
  case JObjectValue m => rw [← h.1]; rfl
  case ptr q =>
    cases q with
    | none => simp at h
    | some m => simp at h
  case other name kind =>
    by_cases hk : kind = .Int
    · simp [hk] at h
    · simp [hk] at h
      rw [← h.1]; rfl

/-- Every call of `Set` that returns a non-nil error has failed in one of two ways: the
value was rejected after the whole path had been walked, and the node at the path is
left tagged Null over it; or a segment with at least one more after it was rejected, and
the node reached by the segments before it is left such that the segment fails there
without touching it. -/
theorem Set_error_cases (p : List GoValue) (n : JsonNode) (v : GoValue) (n' : JsonNode)
    (r : Option JsonNode) (e : String) (h : Set n v p = (n', .ret (r, some e))) :
    (∃ leaf, descendant n' p = some leaf ∧ consistent leaf = false) ∨
      (∃ pre s rest d', p = pre ++ s :: rest ∧ rest ≠ [] ∧ descendant n' pre = some d' ∧
        failsUntouched d' s = true) := by
  induction p generalizing n v n' r e with
  | nil =>
    exact Or.inl ⟨n', rfl, setValue_error n v n' r e (by simpa [Set] using h)⟩
  | cons a tail ih =>
    cases hv : intToFloat v with
    | fault => cases tail <;> simp [Set, hv] at h
    | ret w =>
      rcases hg : getOrAddNextNode n a with ⟨n1, out⟩
      have hcases := getOrAddNextNode_cases n a
      rw [hg] at hcases
      rcases hcases with h1 | ⟨c, h1, h2⟩ | ⟨e1, h1, h2⟩
      · simp only at h1
        subst h1
        cases tail <;> simp [Set, hv, hg] at h
      · simp only at h1 h2
        subst h1
        cases tail with
        | nil =>
          rcases hsv : setValue c w with ⟨c', r'⟩
          simp only [Set, hv, hg, hsv, Prod.mk.injEq] at h
          obtain ⟨rfl, rfl⟩ := h
          refine Or.inl ⟨c', ?_, setValue_error c w c' r e hsv⟩
          rw [descendant, child_putChild n1 c c' a h2]
          rfl
        | cons a2 rest =>
          rcases hsv : Set c w (a2 :: rest) with ⟨c', r'⟩
          simp only [Set, hv, hg, hsv, Prod.mk.injEq, ne_eq, not_true_eq_false,
            if_false] at h
          obtain ⟨rfl, rfl⟩ := h
          rcases ih c w c' r e hsv with ⟨leaf, hl1, hl2⟩ | ⟨pre, s, rest2, d', hp, hr, hd, hf⟩
          · refine Or.inl ⟨leaf, ?_, hl2⟩
            rw [descendant, child_putChild n1 c c' a h2]
            exact hl1
          · refine Or.inr ⟨a :: pre, s, rest2, d', by simp [hp], hr, ?_, hf⟩
            rw [descendant, child_putChild n1 c c' a h2]
            exact hd
      · simp only at h1 h2
        subst h1
        cases tail with
        | nil => simp [Set, hv, hg] at h
        | cons a2 rest =>
          simp only [Set, hv, hg] at h
          simp at h
          obtain ⟨h3, _⟩ := h
          subst h3
          exact Or.inr ⟨[], a, a2 :: rest, n1, rfl, by simp, rfl, h2⟩

/-- On a consistent node, `getOrAddNextNode` with a failing segment returns the nil node
and an error, and leaves a node at which the segment fails without touching it. -/
theorem getOrAddNextNode_failing (n : JsonNode) (s : GoValue)
    (hn : consistent n = true) (hs : isFailingSegment s = true) :
    ∃ n1 e, getOrAddNextNode n s = (n1, .ret (none, some e)) ∧
      failsUntouched n1 s = true := by
  obtain ⟨t, v⟩ := n
  cases s
  case string => simp [isFailingSegment] at hs
  case nil => simp [isFailingSegment] at hs
  case int i =>
    have hi : i < 0 := by simpa [isFailingSegment] using hs
    have key : ∀ xs : List JsonNode, ∃ n1 e,
        getOrAddNextNode (.mk .JArray (.JArrayValue xs)) (.int i) =
          (n1, .ret (none, some e)) ∧ failsUntouched n1 (.int i) = true :=
      fun xs => ⟨.mk .JArray (.JArrayValue xs), "index can not < 0",
        by simp [getOrAddNextNode, JsonNode.nodeType, JsonNode.value, hi],
        by simp [failsUntouched, hi]⟩
    by_cases ht : t = .JArray
    · subst ht
      obtain ⟨xs, rfl, _⟩ := consistent_array v hn
      exact key xs
    · rw [getOrAddNextNode_int_coerce t v i ht]
      exact key []
  all_goals exact ⟨_, _, rfl, rfl⟩

/-- On a consistent tree, a `Set` whose path runs through keys and non-negative indices
to a failing segment that is not the last returns an error, and leaves a tree in which
those keys and indices all address existing nodes, down to a node at which the failing
segment fails without touching it. -/
theorem Set_fails_left_behind (pre : List GoValue) (s : GoValue) (rest : List GoValue)
    (n : JsonNode) (v w : GoValue) (hv : intToFloat v = .ret w)
    (hn : consistent n = true) (hpre : ∀ a ∈ pre, isSegment a = true)
    (hs : isFailingSegment s = true) (hrest : rest ≠ []) :
    ∃ n' e d', Set n v (pre ++ s :: rest) = (n', .ret (none, some e)) ∧
      descendant n' pre = some d' ∧ failsUntouched d' s = true := by
  induction pre generalizing n v with
  | nil =>
    obtain ⟨n1, e, hg, hf⟩ := getOrAddNextNode_failing n s hn hs
    cases rest with
    | nil => exact absurd rfl hrest
    | cons s2 rest2 => exact ⟨n1, e, n1, by simp [Set, hv, hg], rfl, hf⟩
  | cons a pre ih =>
    obtain ⟨node1, c, hstep, hc, _⟩ :=
      getOrAddNextNode_segment n a hn (hpre a (by simp))
    have hchild : child node1 a = some c := by
      have hcases := getOrAddNextNode_cases n a
      rw [hstep] at hcases
      rcases hcases with h1 | ⟨c0, h1, h2⟩ | ⟨e1, h1, _⟩
      · simp at h1
      · simp only [Outcome.ret.injEq, Prod.mk.injEq, Option.some.injEq, and_true] at h1
        rw [h1]
        exact h2
      · simp at h1
    obtain ⟨c', e, d', hset, hdesc, hf⟩ :=
      ih c w (intToFloat_idem v w hv) hc (fun b hb => hpre b (List.mem_cons_of_mem _ hb))
    refine ⟨putChild node1 a c', e, d', ?_, ?_, hf⟩
    · cases htail : pre ++ s :: rest with
      | nil => simp at htail
      | cons s2 rest2 =>
        rw [htail] at hset
        rw [List.cons_append, htail]
        simp [Set, hv, hstep, hset]
    · rw [descendant, child_putChild node1 c c' a hchild]
      exact hdesc

/-! # The claims -/

/-! ## C1: get-after-set -/

/-- C1, counterexample. `Set` with a generic `[]interface{}` value tags a fresh node as
an Array while its payload is no `JArrayValue`; on that node `Set(true, 0)` panics in the
type assertion of `getOrAddNextNode` instead of returning. -/
theorem C1_counterexample_inconsistent_node :
    Set NewJsonNode (.slice []) [] =
        (.mk .JArray (.slice []), .ret (some (.mk .JArray (.slice [])), none)) ∧
      Set (.mk .JArray (.slice [])) (.bool true) [.int 0] =
        (.mk .JArray (.slice []), .fault) :=
  ⟨rfl, rfl⟩

/-- C1, amended. For every node whose tags and payloads are consistent, every scalar
value `v` (a bool, a float64, a string or a native int) and every non-empty path of
string keys and non-negative int indices, `Set(v, p...)` returns a nil error and a
following `Get(p...)` returns, with a nil error, the node holding exactly `v`; when `v`
is a native int `i`, that node is the Number `float64(i)` and `GetNumber(p...)` returns
it. -/
theorem C1_get_after_set (n : JsonNode) (v : GoValue) (p : List GoValue)
    (hn : consistent n = true) (hv : isScalar v = true) (hp : p ≠ [])
    (hseg : ∀ s ∈ p, isSegment s = true) :
    ∃ n', Set n v p = (n', .ret (some (nodeOf v), none)) ∧
      Get (some n') p = .ret (some (nodeOf v), none) ∧
      ∀ i, v = .int i → GetNumber n' p = .ret (float64OfInt i, none) := by
  obtain ⟨n', h1, h2⟩ := set_then_get p hp hseg n v hn hv
  refine ⟨n', h1, h2, ?_⟩
  rintro i rfl
  simp [GetNumber, h2, nodeOf, JsonNode.IsNumber, JsonNode.nodeType, JsonNode.value]

/-- C1, witness: `Set(1, "A")` on a fresh node, then `GetNumber("A")`, gives the double
`1.0` (bit pattern `0x3FF0000000000000`). -/
theorem C1_get_after_set_witness :
    consistent NewJsonNode = true ∧ isScalar (.int 1) = true ∧
      float64OfInt 1 = ⟨0x3FF0000000000000⟩ ∧
      ∃ n', Set NewJsonNode (.int 1) [.string "A"] = (n', .ret (some (nodeOf (.int 1)), none)) ∧
        Get (some n') [.string "A"] = .ret (some (nodeOf (.int 1)), none) ∧
        ∀ i, GoValue.int 1 = .int i →
          GetNumber n' [.string "A"] = .ret (float64OfInt i, none) :=
  ⟨rfl, rfl, rfl,
    C1_get_after_set NewJsonNode (.int 1) [.string "A"] rfl rfl (by simp)
      (by simp [isSegment])⟩

/-! ## C2: path resolution -/

/-- C2. For every tree and every non-empty path whose segments in turn address an
existing child (a string key present in an Object, an int index within `[0, len)` of an
Array), `Get(p...)` returns with a nil error exactly the descendant reached by following
the segments in order; and for a first segment `s` followed by a non-empty rest,
`Get(s, rest...)` is `Get(rest...)` applied to the child selected by `s`.  Consistency of
the tree is not needed beyond what addressing existing children already says. -/
theorem C2_get_resolves_path (n : JsonNode) (p : List GoValue) (d : JsonNode)
    (hp : p ≠ []) (hd : descendant n p = some d) :
    Get (some n) p = .ret (some d, none) ∧
      ∀ s rest c, rest ≠ [] → child n s = some c →
        Get (some n) (s :: rest) = Get (some c) rest := by
  refine ⟨Get_descendant p hp n d hd, ?_⟩
  intro s rest c hrest hc
  cases rest with
  | nil => exact absurd rfl hrest
  | cons s2 rest2 => simp [Get, getNextNode_child n s c hc]

/-- C2, witness: in the list of the tests, the path `0, "Parents", 0` resolves to the
String node `"Gomez"`. -/
theorem C2_get_resolves_path_witness :
    descendant wednesdayList [.int 0, .string "Parents", .int 0] =
        some (.mk .JString (.string "Gomez")) ∧
      Get (some wednesdayList) [.int 0, .string "Parents", .int 0] =
        .ret (some (.mk .JString (.string "Gomez")), none) :=
  ⟨rfl, (C2_get_resolves_path wednesdayList [.int 0, .string "Parents", .int 0]
    (.mk .JString (.string "Gomez")) (by simp) rfl).1⟩

/-! ## C3: auto-vivification -/

/-- C3. For all keys `a`, `b` and every scalar `v`, `Set(v, a, 0, b)` on a fresh Null
node leaves it equal to `Object{a: Array[Object{b: v}]}`; and whatever segments follow,
the root is an Object after a `Set` whose first segment is a string and an Array after a
`Set` whose first segment is an int. -/
theorem C3_auto_vivification (a b : String) (v : GoValue) (hv : isScalar v = true) :
    Set NewJsonNode v [.string a, .int 0, .string b] =
        (.mk .JObject (.JObjectValue [(a, .mk .JArray (.JArrayValue
            [.mk .JObject (.JObjectValue [(b, nodeOf v)])]))]),
          .ret (some (nodeOf v), none)) ∧
      (∀ rest, (Set NewJsonNode v (.string a :: rest)).1.IsObject = true) ∧
      (∀ (i : Int) rest, (Set NewJsonNode v (.int i :: rest)).1.IsArray = true) := by
  obtain ⟨w, hw, hws, _, hww, hset⟩ := intToFloat_scalar v hv
  refine ⟨?_, ?_, ?_⟩
  · simp [Set, hw, hww, hset, getOrAddNextNode, NewJsonNode, JsonNode.nodeType,
      JsonNode.value, mapGet, mapSet, appendNulls, putChild]
  · intro rest
    simp [JsonNode.IsObject, Set_root_tag _ v w _ rest hw, getOrAddNextNode_string_tag]
  · intro i rest
    simp [JsonNode.IsArray, Set_root_tag _ v w _ rest hw, getOrAddNextNode_int_tag]

/-- C3, witness: `Set(true, "a", 0, "b")` on a fresh node. -/
theorem C3_auto_vivification_witness :
    isScalar (.bool true) = true ∧
      Set NewJsonNode (.bool true) [.string "a", .int 0, .string "b"] =
        (.mk .JObject (.JObjectValue [("a", .mk .JArray (.JArrayValue
            [.mk .JObject (.JObjectValue [("b", .mk .JBool (.bool true))])]))]),
          .ret (some (.mk .JBool (.bool true)), none)) :=
  ⟨rfl, (C3_auto_vivification "a" "b" (.bool true) rfl).1⟩

/-! ## C4: array extension -/

/-- C4. For every Array node with elements `es`, every int `i ≥ 0` and every scalar
`v`, `Set(v, i)` returns a nil error and leaves an Array `es'` of length
`max (len es) (i + 1)` in which every element at an index `j < len es`, `j ≠ i`, is
unchanged, every element at an index `len es ≤ j < i` is a Null node, and the element
at `i` holds `v`; on the empty Array, `Set(v, 0)` leaves the one-element Array
holding `v`. -/
theorem C4_array_extension (es : List JsonNode) (i : Int) (v : GoValue)
    (hi : 0 ≤ i) (hv : isScalar v = true) :
    (∃ es', Set (.mk .JArray (.JArrayValue es)) v [.int i] =
        (.mk .JArray (.JArrayValue es'), .ret (some (nodeOf v), none)) ∧
      es'.length = max es.length (i.toNat + 1) ∧
      (∀ j, j < es.length → j ≠ i.toNat → es'[j]? = es[j]?) ∧
      (∀ j, es.length ≤ j → j < i.toNat → es'[j]? = some NewJsonNode) ∧
      es'[i.toNat]? = some (nodeOf v)) ∧
    Set (.mk .JArray (.JArrayValue [])) v [.int 0] =
      (.mk .JArray (.JArrayValue [nodeOf v]), .ret (some (nodeOf v), none)) := by
  obtain ⟨w, hw, _, _, _, hset⟩ := intToFloat_scalar v hv
  obtain ⟨k, rfl⟩ := Int.eq_ofNat_of_zero_le hi
  have hstep := getOrAddNextNode_array es k
  obtain ⟨c, hc, _⟩ := getElem?_padded es k
  refine ⟨⟨(es ++ List.replicate (k + 1 - es.length) NewJsonNode).set k (nodeOf v),
    ?_, ?_, ?_, ?_, ?_⟩, ?_⟩
  · simp [Set, hw, hstep, hc, hset, putChild]
  · simp only [List.length_set, List.length_append, List.length_replicate, Int.toNat_ofNat]
    omega
  · intro j hj hne
    simp only [Int.toNat_ofNat] at hne
    rw [List.getElem?_set_ne (Ne.symm hne), List.getElem?_append_left hj]
  · intro j hj hlt
    simp only [Int.toNat_ofNat] at hlt
    rw [List.getElem?_set_ne (by omega), List.getElem?_append_right hj,
      List.getElem?_replicate]
    simp
    omega
  · simp only [Int.toNat_ofNat]
    rw [List.getElem?_set_self (by simp; omega)]
  · simp [Set, hw, hset, getOrAddNextNode, JsonNode.nodeType, JsonNode.value, appendNulls,
      putChild, NewJsonNode]

/-- C4, witness: `Set("x", 3)` on a one-element Array pads indices 1 and 2 with Null. -/
theorem C4_array_extension_witness :
    (0 : Int) ≤ 3 ∧ isScalar (.string "x") = true ∧
      ∃ es', Set (.mk .JArray (.JArrayValue [.mk .JBool (.bool true)])) (.string "x") [.int 3] =
          (.mk .JArray (.JArrayValue es'), .ret (some (nodeOf (.string "x")), none)) ∧
        es'.length = max [JsonNode.mk .JBool (.bool true)].length ((3 : Int).toNat + 1) ∧
        (∀ j, j < [JsonNode.mk .JBool (.bool true)].length → j ≠ (3 : Int).toNat →
          es'[j]? = [JsonNode.mk .JBool (.bool true)][j]?) ∧
        (∀ j, [JsonNode.mk .JBool (.bool true)].length ≤ j → j < (3 : Int).toNat →
          es'[j]? = some NewJsonNode) ∧
        es'[(3 : Int).toNat]? = some (nodeOf (.string "x")) :=
  ⟨by decide, rfl,
    (C4_array_extension [.mk .JBool (.bool true)] 3 (.string "x") (by decide) rfl).1⟩

/-! ## C5: coercion of populated nodes -/

/-- C5, counterexample. `Set("x", "a")` on the Bool node `true` returns a nil error and
replaces the node by `Object{"a": "x"}`: the Bool is discarded without an error. -/
theorem C5_counterexample_bool_coerced :
    Set (.mk .JBool (.bool true)) (.string "x") [.string "a"] =
      (.mk .JObject (.JObjectValue [("a", .mk .JString (.string "x"))]),
        .ret (some (.mk .JString (.string "x")), none)) :=
  rfl

/-- C5, amended. `Set` never refuses to coerce: on every node that is not an Object and
is addressed with a string segment, and on every node that is not an Array and is
addressed with an int segment, `Set(v, seg, ...)` with a scalar `v` behaves exactly as on
an empty Object, respectively an empty Array, so the previous content is discarded; with
the single segment `k` it returns a nil error and leaves `Object{k: v}`, and with the
single segment `i ≥ 0` it returns a nil error and leaves the Array of `i` Null nodes
followed by `v`. -/
theorem C5_set_coerces (n : JsonNode) (v : GoValue) (hv : isScalar v = true) :
    (∀ k rest, n.nodeType ≠ .JObject →
        Set n v (.string k :: rest) =
          Set (.mk .JObject (.JObjectValue [])) v (.string k :: rest)) ∧
      (∀ i rest, n.nodeType ≠ .JArray →
        Set n v (.int i :: rest) = Set (.mk .JArray (.JArrayValue [])) v (.int i :: rest)) ∧
      (∀ k, n.nodeType ≠ .JObject →
        Set n v [.string k] =
          (.mk .JObject (.JObjectValue [(k, nodeOf v)]), .ret (some (nodeOf v), none))) ∧
      (∀ i : Int, 0 ≤ i → n.nodeType ≠ .JArray →
        Set n v [.int i] =
          (.mk .JArray (.JArrayValue (List.replicate i.toNat NewJsonNode ++ [nodeOf v])),
            .ret (some (nodeOf v), none))) := by
  obtain ⟨w, hw, _, _, _, hset⟩ := intToFloat_scalar v hv
  obtain ⟨t, x⟩ := n
  refine ⟨?_, ?_, ?_, ?_⟩
  · intro k rest ht
    cases rest <;>
      simp only [Set, hw, getOrAddNextNode_string_coerce t x k ht]
  · intro i rest ht
    cases rest <;>
      simp only [Set, hw, getOrAddNextNode_int_coerce t x i ht]
  · intro k ht
    have hstep : getOrAddNextNode (.mk t x) (.string k) =
        (.mk .JObject (.JObjectValue [(k, NewJsonNode)]), .ret (some NewJsonNode, none)) := by
      rw [getOrAddNextNode_string_coerce t x k ht]
      simp [getOrAddNextNode, JsonNode.nodeType, JsonNode.value, mapGet, mapSet]
    simp [Set, hw, hstep, hset, putChild, mapSet]
  · intro i hi ht
    obtain ⟨k, rfl⟩ := Int.eq_ofNat_of_zero_le hi
    have hk : (List.replicate (k + 1) NewJsonNode)[k]? = some NewJsonNode := by
      simp [List.getElem?_replicate]
    have hlast : (List.replicate (k + 1) NewJsonNode).set k (nodeOf v) =
        List.replicate k NewJsonNode ++ [nodeOf v] := by
      rw [List.replicate_succ', List.set_append_right _ _ (by simp)]
      simp
    have hstep : getOrAddNextNode (.mk t x) (.int k) =
        (.mk .JArray (.JArrayValue (List.replicate (k + 1) NewJsonNode)),
          .ret (some NewJsonNode, none)) := by
      rw [getOrAddNextNode_int_coerce t x k ht, getOrAddNextNode_array]
      simp [hk]
    simp [Set, hw, hstep, hset, putChild, hlast]

/-- C5, witness: the populated Array `[true]` addressed with the key `"a"`. -/
theorem C5_set_coerces_witness :
    isScalar (.string "x") = true ∧
      Set (.mk .JArray (.JArrayValue [.mk .JBool (.bool true)])) (.string "x") [.string "a"] =
        (.mk .JObject (.JObjectValue [("a", nodeOf (.string "x"))]),
          .ret (some (nodeOf (.string "x")), none)) :=
  ⟨rfl, (C5_set_coerces (.mk .JArray (.JArrayValue [.mk .JBool (.bool true)]))
    (.string "x") rfl).2.2.1 "a" (by decide)⟩

/-! ## C6: atomicity of a failed Set -/

/-- C6, counterexample. `Set(true, -1, "b")` on a fresh Null node returns a non-nil
error, and the node is left coerced to an empty Array. -/
theorem C6_counterexample_coercion_left_behind :
    Set NewJsonNode (.bool true) [.int (-1), .string "b"] =
      (.mk .JArray (.JArrayValue []), .ret (none, some "index can not < 0")) :=
  rfl

/-- C6, amended. A failed `Set` leaves the tree as it was only when nothing had to be
created or coerced before the failure; `v` is a value that passes the conversion at the
head of `Set`.

* For every node `n` and every path `pre ++ s :: rest` with `rest` non-empty in which the
  segments of `pre` address existing children down to a node `d` and `s` is a non-nil
  value that is neither a string nor an int, or a negative int while `d` is an Array,
  `Set` returns a non-nil error and the tree is equal to the tree before the call.
* For every consistent tree `n` and every path `pre ++ s :: rest` with `rest` non-empty
  in which `pre` consists of string keys and non-negative int indices and `s` is a
  non-nil value that is neither a string nor an int, or a negative int, `Set` returns a
  non-nil error; afterwards every segment of `pre` addresses an existing node, down to a
  node that is an Array when `s` is a negative int, so what was created or coerced on
  the way is left behind; and the tree is equal to the tree before the call if and only
  if the path is one of the first item.
* For every consistent tree `n` and every path, whenever `Set` returns a non-nil error
  the tree is equal to the tree before the call if and only if the path is one of the
  first item. -/
theorem C6_failed_set_unchanged (n : JsonNode) (v w : GoValue) (p : List GoValue)
    (hv : intToFloat v = .ret w) :
    (∀ pre s rest d, p = pre ++ s :: rest → rest ≠ [] → descendant n pre = some d →
        failsUntouched d s = true → ∃ e, Set n v p = (n, .ret (none, some e))) ∧
      (consistent n = true → ∀ pre s rest, p = pre ++ s :: rest → rest ≠ [] →
        (∀ a ∈ pre, isSegment a = true) → isFailingSegment s = true →
        ∃ n' e d', Set n v p = (n', .ret (none, some e)) ∧
          descendant n' pre = some d' ∧ failsUntouched d' s = true ∧
          (n' = n ↔ ∃ d, descendant n pre = some d ∧ failsUntouched d s = true)) ∧
      (consistent n = true → ∀ n' r e, Set n v p = (n', .ret (r, some e)) →
        (n' = n ↔ ∃ pre s rest d, p = pre ++ s :: rest ∧ rest ≠ [] ∧
          descendant n pre = some d ∧ failsUntouched d s = true)) := by
  have hA : ∀ pre s rest d, p = pre ++ s :: rest → rest ≠ [] → descendant n pre = some d →
      failsUntouched d s = true → ∃ e, Set n v p = (n, .ret (none, some e)) := by
    intro pre s rest d hp hrest hd hs
    rw [hp]
    exact Set_fails_unchanged pre s rest n d v w hv hd hrest hs
  refine ⟨hA, ?_, ?_⟩
  · intro hn pre s rest hp hrest hpre hs
    obtain ⟨n', e, d', hset, hdesc, hf⟩ :=
      Set_fails_left_behind pre s rest n v w hv hn hpre hs hrest
    rw [← hp] at hset
    refine ⟨n', e, d', hset, hdesc, hf, ?_, ?_⟩
    · intro h
      rw [h] at hdesc
      exact ⟨d', hdesc, hf⟩
    · rintro ⟨d, hd, hfd⟩
      obtain ⟨e2, he2⟩ := hA pre s rest d hp hrest hd hfd
      rw [hset] at he2
      exact (Prod.mk.inj he2).1
  · intro hn n' r e hset
    constructor
    · intro h
      rcases Set_error_cases p n v n' r e hset with ⟨leaf, hl1, hl2⟩ | ⟨pre, s, rest, d', hp, hr, hd, hf⟩
      · rw [h] at hl1
        rw [consistent_descendant p n leaf hn hl1] at hl2
        exact absurd hl2 (by simp)
      · rw [h] at hd
        exact ⟨pre, s, rest, d', hp, hr, hd, hf⟩
    · rintro ⟨pre, s, rest, d, hp, hrest, hd, hfd⟩
      obtain ⟨e2, he2⟩ := hA pre s rest d hp hrest hd hfd
      rw [hset] at he2
      exact (Prod.mk.inj he2).1

/-- C6, witness. In the object of the tests, `Set(true, "Parents", -1, "x")` fails at the
existing Array `Parents` and changes nothing; `Set(true, "Pet", -1, "x")` fails after the
key `"Pet"` has been created and its node coerced to an Array, which are left behind; and
`Set` with an `int32` at the key `"A"` of a fresh node returns an error and leaves the
node an Object holding the rejected value. -/
theorem C6_failed_set_unchanged_witness :
    intToFloat (.bool true) = .ret (.bool true) ∧
      descendant wednesday [.string "Parents"] = some (.mk .JArray (.JArrayValue [
        .mk .JString (.string "Gomez"), .mk .JString (.string "Morticia")])) ∧
      (∃ e, Set wednesday (.bool true) [.string "Parents", .int (-1), .string "x"] =
        (wednesday, .ret (none, some e))) ∧
      descendant wednesday [.string "Pet"] = none ∧
      (∃ n' e d', Set wednesday (.bool true) [.string "Pet", .int (-1), .string "x"] =
          (n', .ret (none, some e)) ∧
        descendant n' [.string "Pet"] = some d' ∧ failsUntouched d' (.int (-1)) = true ∧
        (n' = wednesday ↔
          ∃ d, descendant wednesday [.string "Pet"] = some d ∧
            failsUntouched d (.int (-1)) = true)) ∧
      Set NewJsonNode (.other "int32" .Other) [.string "A"] =
        (.mk .JObject (.JObjectValue [("A", .mk .JNull (.other "int32" .Other))]),
          .ret (some (.mk .JNull (.other "int32" .Other)), some "wrong type")) ∧
      (JsonNode.mk .JObject (.JObjectValue [("A", .mk .JNull (.other "int32" .Other))]) =
          NewJsonNode ↔
        ∃ pre s rest d, [GoValue.string "A"] = pre ++ s :: rest ∧ rest ≠ [] ∧
          descendant NewJsonNode pre = some d ∧ failsUntouched d s = true) :=
  ⟨rfl, rfl,
    (C6_failed_set_unchanged wednesday (.bool true) (.bool true)
      [.string "Parents", .int (-1), .string "x"] rfl).1
      [.string "Parents"] (.int (-1)) [.string "x"] _ rfl (by simp) rfl rfl,
    rfl,
    (C6_failed_set_unchanged wednesday (.bool true) (.bool true)
      [.string "Pet", .int (-1), .string "x"] rfl).2.1 rfl
      [.string "Pet"] (.int (-1)) [.string "x"] rfl (by simp) (by simp [isSegment]) rfl,
    rfl,
    (C6_failed_set_unchanged NewJsonNode (.other "int32" .Other) (.other "int32" .Other)
      [.string "A"] rfl).2.2 rfl _ (some (.mk .JNull (.other "int32" .Other))) "wrong type"
      rfl⟩

/-! ## C7 to C10: missing keys, bad indices, typed getters, Delete -/

/-- C7, divergence. For every Object and every string key that is not a key of it,
`Get(k)` returns the nil node together with the nil error. -/
theorem C7_get_missing_key_nil_nil (m : List (String × JsonNode)) (k : String)
    (h : mapGet m k = none) :
    Get (some (.mk .JObject (.JObjectValue m))) [.string k] = .ret (none, none) := by
  simp [Get, getNextNode, JsonNode.nodeType, JsonNode.value, h]

/-- C7, witness: the key `"Pet"` in the object of the tests. -/
theorem C7_get_missing_key_nil_nil_witness :
    Get (some wednesday) [.string "Pet"] = .ret (none, none) :=
  C7_get_missing_key_nil_nil _ "Pet" rfl

/-- C8, divergence. For every Array of length `n` and every int `i` with `i < 0` or
`i ≥ n`, `Get(i)` executes the slice index outside `[0, n)` and panics. -/
theorem C8_get_index_out_of_range_faults (xs : List JsonNode) (i : Int)
    (h : i < 0 ∨ (xs.length : Int) ≤ i) :
    Get (some (.mk .JArray (.JArrayValue xs))) [.int i] = .fault := by
  have : ¬ (0 ≤ i ∧ i < xs.length) := by omega
  simp [Get, getNextNode, JsonNode.nodeType, JsonNode.value, this]

/-- C8, witness: index 0 of the empty Array. -/
theorem C8_get_index_out_of_range_faults_witness :
    Get (some (.mk .JArray (.JArrayValue []))) [.int 0] = .fault :=
  C8_get_index_out_of_range_faults [] 0 (by decide)

/-- C9, divergence. Whenever `Get` returns the nil node (every failure of `Get`, and a
missing key), each typed getter dereferences it and panics. -/
theorem C9_typed_getters_fault (n : JsonNode) (p : List GoValue) (e : error)
    (h : Get (some n) p = .ret (none, e)) :
    GetString n p = .fault ∧ GetBool n p = .fault ∧ GetNumber n p = .fault ∧
      GetNull n p = .fault := by
  simp [GetString, GetBool, GetNumber, GetNull, h]

/-- C9, witness: the typed getters called with no path segment. -/
theorem C9_typed_getters_fault_witness :
    Get (some wednesday) [] = .ret (none, some "wrong type") ∧
      GetString wednesday [] = .fault ∧ GetBool wednesday [] = .fault ∧
      GetNumber wednesday [] = .fault ∧ GetNull wednesday [] = .fault :=
  ⟨rfl, C9_typed_getters_fault wednesday [] (some "wrong type") rfl⟩

/-- C10, divergence. For every Array and every index within `[0, len)`, `Delete(i)`
removes the element and still returns `false` with a non-nil error. -/
theorem C10_delete_index_reports_failure (xs : List JsonNode) (i : Int)
    (h0 : 0 ≤ i) (h1 : i < xs.length) :
    Delete (.mk .JArray (.JArrayValue xs)) [.int i] =
      (.mk .JArray (.JArrayValue (xs.eraseIdx i.toNat)),
        .ret (false, some "there is no json info here")) := by
  have : ¬ i < 0 := by omega
  simp [Delete, deleteChild, JsonNode.nodeType, JsonNode.value, TypeOf, this, h1]

/-- C10, witness: `Delete(0)` on the list of the tests leaves `["hello"]` and reports
failure. -/
theorem C10_delete_index_reports_failure_witness :
    Delete wednesdayList [.int 0] =
      (.mk .JArray (.JArrayValue [.mk .JString (.string "hello")]),
        .ret (false, some "there is no json info here")) :=
  C10_delete_index_reports_failure _ 0 (by decide) (by decide)

/-! ## C11 and C12: the effect of Delete -/

/-- Looking a key up after `delete(m, k)`: `k` is gone and every other key is as before. -/
theorem mapGet_mapDelete (m : List (String × JsonNode)) (k k' : String) :
    mapGet (mapDelete m k) k' = if k' = k then none else mapGet m k' := by
  induction m with
  | nil => simp [mapDelete, mapGet]
  | cons e m ih =>
    obtain ⟨k0, y⟩ := e
    by_cases h0 : k0 = k
    · subst h0
      by_cases h1 : k' = k0
      · subst h1
        simpa [mapDelete] using ih
      · have h2 : ¬ k0 = k' := fun h => h1 h.symm
        simp [mapDelete, mapGet, ih, h1, h2]
    · by_cases h1 : k' = k
      · subst h1
        simp [mapDelete, mapGet, h0, ih]
      · by_cases h2 : k0 = k'
        · simp [mapDelete, mapGet, h0, h1, h2]
        · simp [mapDelete, mapGet, h0, h1, h2, ih]

/-- The builtin `delete(m, k)` keeps exactly the entries whose key is not `k`. -/
theorem mapDelete_eq_filter (m : List (String × JsonNode)) (k : String) :
    mapDelete m k = m.filter (fun e => decide (e.1 ≠ k)) := by
  induction m with
  | nil => rfl
  | cons e m ih =>
    obtain ⟨k0, y⟩ := e
    by_cases h0 : k0 = k <;> simp [mapDelete, h0, ih]

/-- A segment that addresses no child makes `Delete` leave the node as it is. -/
theorem Delete_no_child (n : JsonNode) (arg : GoValue) (h : child n arg = none) :
    (Delete n [arg]).1 = n := by
  obtain ⟨t, v⟩ := n
  cases t <;> try rfl
  case JArray =>
    cases arg <;> try rfl
    case other name kind =>
      cases kind <;> rfl
    case int i =>
      by_cases hi : i < 0
      · simp [Delete, deleteChild, JsonNode.nodeType, JsonNode.value, TypeOf, hi]
      · cases v with
        | JArrayValue xs =>
          have h0 : 0 ≤ i := by omega
          simp only [child, h0, if_true] at h
          have : xs.length ≤ i.toNat := List.getElem?_eq_none_iff.1 h
          have hlt : ¬ i < xs.length := by omega
          simp [Delete, deleteChild, JsonNode.nodeType, JsonNode.value, TypeOf, hi, hlt]
        | _ => simp [Delete, deleteChild, JsonNode.nodeType, JsonNode.value, TypeOf, hi]
  case JObject =>
    cases arg <;> try rfl
    case other name kind =>
      cases kind <;> rfl
    case string k =>
      cases v with
      | JObjectValue m =>
        simp only [child] at h
        simp [Delete, deleteChild, JsonNode.nodeType, JsonNode.value, TypeOf, h]
      | _ => simp [Delete, deleteChild, JsonNode.nodeType, JsonNode.value, TypeOf]

/-- C11. For every Object with the key `k` present, `Delete(k)` leaves the Object with
exactly the previous entries except `k`, each with its previous value; for every Array
`es` and index `0 ≤ i < len es`, `Delete(i)` leaves the Array
`e_0 .. e_{i-1}, e_{i+1} .. e_{n-1}`, of length `n - 1`, in which `Get(i)` returns the old
`e_{i+1}`; and when the segment addresses no child (the key is absent, the index is
outside `[0, n)`, or the segment does not fit the container) the node is unchanged. -/
theorem C11_delete_effect (m : List (String × JsonNode)) (k : String) (x : JsonNode)
    (es : List JsonNode) (i : Int)
    (hk : mapGet m k = some x) (h0 : 0 ≤ i) (h1 : i < es.length) :
    ((Delete (.mk .JObject (.JObjectValue m)) [.string k]).1 =
        .mk .JObject (.JObjectValue (m.filter (fun e => decide (e.1 ≠ k)))) ∧
      ∀ k', mapGet (m.filter (fun e => decide (e.1 ≠ k))) k' =
        if k' = k then none else mapGet m k') ∧
    ((Delete (.mk .JArray (.JArrayValue es)) [.int i]).1 =
        .mk .JArray (.JArrayValue (es.take i.toNat ++ es.drop (i.toNat + 1))) ∧
      (es.take i.toNat ++ es.drop (i.toNat + 1)).length = es.length - 1 ∧
      (∀ j, j < i.toNat → (es.take i.toNat ++ es.drop (i.toNat + 1))[j]? = es[j]?) ∧
      (∀ j, i.toNat ≤ j → (es.take i.toNat ++ es.drop (i.toNat + 1))[j]? = es[j + 1]?) ∧
      (i + 1 < es.length →
        Get (some (Delete (.mk .JArray (.JArrayValue es)) [.int i]).1) [.int i] =
          .ret (es[i.toNat + 1]?, none))) ∧
    ∀ n arg, child n arg = none → (Delete n [arg]).1 = n := by
  obtain ⟨a, rfl⟩ := Int.eq_ofNat_of_zero_le h0
  have ha : a < es.length := by exact_mod_cast h1
  have hshape : (Delete (.mk .JArray (.JArrayValue es)) [.int (a : Int)]).1 =
      .mk .JArray (.JArrayValue (es.take a ++ es.drop (a + 1))) := by
    have hn : ¬ ((a : Int) < 0) := by omega
    simp [Delete, deleteChild, JsonNode.nodeType, JsonNode.value, TypeOf, hn, ha,
      List.eraseIdx_eq_take_drop_succ]
  have hlow : ∀ j, j < a → (es.take a ++ es.drop (a + 1))[j]? = es[j]? := by
    intro j hj
    rw [List.getElem?_append_left (by simp; omega), List.getElem?_take_of_lt hj]
  have hhigh : ∀ j, a ≤ j → (es.take a ++ es.drop (a + 1))[j]? = es[j + 1]? := by
    intro j hj
    rw [List.getElem?_append_right (by simp; omega), List.getElem?_drop]
    congr 1
    simp
    omega
  refine ⟨⟨?_, ?_⟩, ⟨?_, ?_, ?_, ?_, ?_⟩, Delete_no_child⟩
  · simp [Delete, deleteChild, JsonNode.nodeType, JsonNode.value, TypeOf, hk,
      mapDelete_eq_filter]
  · intro k'
    rw [← mapDelete_eq_filter, mapGet_mapDelete]
  · simpa using hshape
  · simp
    omega
  · simpa using hlow
  · simpa using hhigh
  · intro hlt
    rw [hshape]
    have hlen : (a : Int) < (es.take a ++ es.drop (a + 1)).length := by
      simp
      omega
    simp only [Get, getNextNode, JsonNode.nodeType, JsonNode.value, if_true]
    rw [if_pos ⟨h0, hlen⟩]
    simp [hhigh a (Nat.le_refl a)]

/-- C11, witness: in the object of the tests, `Delete("Name")` removes that entry, and
`Delete(0)` on the Array `Parents` leaves `["Morticia"]`. -/
theorem C11_delete_effect_witness :
    (Delete wednesday [.string "Name"]).1 =
        .mk .JObject (.JObjectValue [
          ("Age", .mk .JNumber (.float64 (float64OfInt 6))),
          ("Parents", .mk .JArray (.JArrayValue [
            .mk .JString (.string "Gomez"), .mk .JString (.string "Morticia")]))]) ∧
      (Delete (.mk .JArray (.JArrayValue [
          .mk .JString (.string "Gomez"), .mk .JString (.string "Morticia")])) [.int 0]).1 =
        .mk .JArray (.JArrayValue [.mk .JString (.string "Morticia")]) ∧
      Get (some (Delete (.mk .JArray (.JArrayValue [
          .mk .JString (.string "Gomez"), .mk .JString (.string "Morticia")])) [.int 0]).1)
          [.int 0] = .ret (some (.mk .JString (.string "Morticia")), none) :=
  have h := C11_delete_effect
    [("Name", .mk .JString (.string "Wednesday")),
      ("Age", .mk .JNumber (.float64 (float64OfInt 6))),
      ("Parents", .mk .JArray (.JArrayValue [
        .mk .JString (.string "Gomez"), .mk .JString (.string "Morticia")]))]
    "Name" (.mk .JString (.string "Wednesday"))
    [.mk .JString (.string "Gomez"), .mk .JString (.string "Morticia")] 0
    rfl (by decide) (by decide)
  ⟨h.1.1, h.2.1.1, h.2.1.2.2.2.2 (by decide)⟩

/-- C12, counterexample. `Delete()` on the object of the tests returns `false` with a
non-nil error, and the node, an Object before the call, is a Null node after it. -/
theorem C12_counterexample_root_reset :
    Delete wednesday [] =
        (.mk .JNull .nil, .ret (false, some "can not delete without parameter")) ∧
      wednesday.nodeType = .JObject :=
  ⟨rfl, rfl⟩

/-- C12, amended. For every node `n`, `Delete()` with no path segment returns `false`
with a non-nil error and resets `n` to Null: its tag becomes Null and its payload nil. -/
theorem C12_delete_root_resets (n : JsonNode) :
    Delete n [] = (NewJsonNode, .ret (false, some "can not delete without parameter")) :=
  rfl

/-! ## C17: bad path segments -/

/-- With a single segment that is neither a string nor a non-negative int,
`getOrAddNextNode` returns no node, or panics. -/
theorem getOrAddNextNode_bad_segment (n : JsonNode) (s : GoValue)
    (hs : isSegment s = false) :
    (∃ e, (getOrAddNextNode n s).2 = .ret (none, e)) ∨ (getOrAddNextNode n s).2 = .fault := by
  obtain ⟨t, v⟩ := n
  cases s
  case string k => simp [isSegment] at hs
  case nil => exact Or.inr rfl
  case int i =>
    have hi : i < 0 := by simpa [isSegment] using hs
    by_cases ht : t = .JArray
    · subst ht
      cases v <;>
        simp [getOrAddNextNode, JsonNode.nodeType, JsonNode.value, hi]
    · left
      exact ⟨some "index can not < 0",
        by simp [getOrAddNextNode, JsonNode.nodeType, JsonNode.value, ht, hi]⟩
  all_goals exact Or.inl ⟨_, rfl⟩

/-- C17, divergence. For every node, every value and every last segment that is a
negative int or neither a string nor an int, `Set` does not return: it ignores the error
of `getOrAddNextNode` and calls `Set` on the nil node (or panics before that). -/
theorem C17_set_bad_last_segment_faults (n : JsonNode) (v s : GoValue)
    (hs : isSegment s = false) : (Set n v [s]).2 = .fault := by
  cases hv : intToFloat v with
  | fault => simp [Set, hv]
  | ret w =>
    simp only [Set, hv]
    rcases getOrAddNextNode_bad_segment n s hs with ⟨e, he⟩ | he
    · rcases hstep : getOrAddNextNode n s with ⟨node1, out⟩
      rw [hstep] at he
      simp only at he
      subst he
      rfl
    · rcases hstep : getOrAddNextNode n s with ⟨node1, out⟩
      rw [hstep] at he
      simp only at he
      subst he
      rfl

/-- C17, witness: `Set(true, -1)` on a fresh node panics, leaving an empty Array. -/
theorem C17_set_bad_last_segment_faults_witness :
    isSegment (.int (-1)) = false ∧
      Set NewJsonNode (.bool true) [.int (-1)] = (.mk .JArray (.JArrayValue []), .fault) ∧
      (Set NewJsonNode (.bool true) [.int (-1)]).2 = .fault :=
  ⟨rfl, rfl, C17_set_bad_last_segment_faults NewJsonNode (.bool true) (.int (-1)) rfl⟩

/-! ## Serialization -/

/-- The renderings of a slice are the renderings of its elements. -/
theorem renderList_eq_map (fmt : float64 → String) (xs : List JsonNode) :
    renderList fmt xs = xs.map (render fmt) := by
  induction xs with
  | nil => simp [renderList]
  | cons x xs ih => simp [renderList, ih]

/-- The pairs of a map are the pairs of its entries. -/
theorem renderEntries_eq_map (fmt : float64 → String) (m : List (String × JsonNode)) :
    renderEntries fmt m = m.map (fun e => "\"" ++ e.1 ++ "\":" ++ render fmt e.2) := by
  induction m with
  | nil => simp [renderEntries]
  | cons e m ih =>
    obtain ⟨k, x⟩ := e
    simp [renderEntries, ih]

/-- A map is consistent exactly when each of its values is. -/
theorem consistentEntries_iff (m : List (String × JsonNode)) :
    consistentEntries m = true ↔ ∀ e ∈ m, consistent e.2 = true := by
  induction m with
  | nil => simp [consistentEntries]
  | cons e m ih =>
    obtain ⟨k, x⟩ := e
    simp [consistentEntries, ih]

/-- Joining onto a text that starts with `p` is `p` followed by the joining onto the
rest. -/
theorem intercalate_go_append (p acc s : String) (l : List String) :
    String.intercalate.go (p ++ acc) s l = p ++ String.intercalate.go acc s l := by
  induction l generalizing acc with
  | nil => simp [String.intercalate.go]
  | cons a l ih =>
    simp only [String.intercalate.go]
    rw [String.append_assoc, String.append_assoc, ← String.append_assoc acc, ih]

/-- Once the comma flag is set, the loop of `Marshal` over a slice whose elements render
without error joins their renderings onto the text so far, a comma before each. -/
theorem marshalArray_flag (fmt : float64 → String) (xs : List JsonNode) (str : String)
    (h : ∀ x ∈ xs, Marshal fmt x = .ret (render fmt x, none)) :
    marshalArray fmt xs str true =
      .ret (String.intercalate.go str "," (xs.map (render fmt)), none) := by
  induction xs generalizing str with
  | nil => simp [marshalArray, String.intercalate.go]
  | cons x xs ih =>
    simp only [marshalArray, h x (List.mem_cons_self _ _), List.map_cons,
      String.intercalate.go, if_true]
    exact ih _ (fun y hy => h y (List.mem_cons_of_mem _ hy))

/-- The loop of `Marshal` over a slice, started on `[` with the flag down, gives `[`
followed by the renderings joined by single commas. -/
theorem marshalArray_start (fmt : float64 → String) (xs : List JsonNode)
    (h : ∀ x ∈ xs, Marshal fmt x = .ret (render fmt x, none)) :
    marshalArray fmt xs "[" false =
      .ret ("[" ++ String.intercalate "," (xs.map (render fmt)), none) := by
  cases xs with
  | nil => simp [marshalArray, String.intercalate]
  | cons x xs =>
    simp only [marshalArray, h x (List.mem_cons_self _ _), List.map_cons,
      String.intercalate, Bool.false_eq_true, if_false]
    rw [marshalArray_flag fmt xs _ (fun y hy => h y (List.mem_cons_of_mem _ hy)),
      intercalate_go_append]

/-- Once the comma flag is set, the loop of `Marshal` over a map joins the pairs of its
entries onto the text so far, a comma before each. -/
theorem marshalObject_flag (fmt : float64 → String) (m : List (String × JsonNode))
    (str : String) (h : ∀ e ∈ m, Marshal fmt e.2 = .ret (render fmt e.2, none)) :
    marshalObject fmt m str true =
      .ret (String.intercalate.go str ","
        (m.map (fun e => "\"" ++ e.1 ++ "\":" ++ render fmt e.2)), none) := by
  induction m generalizing str with
  | nil => simp [marshalObject, String.intercalate.go]
  | cons e m ih =>
    obtain ⟨k, x⟩ := e
    have hx := h (k, x) (List.mem_cons_self _ _)
    simp only at hx
    simp only [marshalObject, hx, List.map_cons, String.intercalate.go, if_true]
    rw [ih _ (fun y hy => h y (List.mem_cons_of_mem _ hy))]
    simp only [String.append_assoc]

/-- The loop of `Marshal` over a map, started on the opening brace with the flag down. -/
theorem marshalObject_start (fmt : float64 → String) (m : List (String × JsonNode))
    (h : ∀ e ∈ m, Marshal fmt e.2 = .ret (render fmt e.2, none)) :
    marshalObject fmt m "\x7b" false =
      .ret ("\x7b" ++ String.intercalate ","
        (m.map (fun e => "\"" ++ e.1 ++ "\":" ++ render fmt e.2)), none) := by
  cases m with
  | nil => simp [marshalObject, String.intercalate]
  | cons e m =>
    obtain ⟨k, x⟩ := e
    have hx := h (k, x) (List.mem_cons_self _ _)
    simp only at hx
    simp only [marshalObject, hx, List.map_cons, String.intercalate, Bool.false_eq_true,
      if_false]
    rw [marshalObject_flag fmt m _ (fun y hy => h y (List.mem_cons_of_mem _ hy)),
      ← intercalate_go_append]
    simp only [String.append_assoc]

/-- On a consistent tree of size at most `k`, `Marshal` returns the reference rendering
and a nil error. -/
theorem Marshal_render_sized (fmt : float64 → String) (k : Nat) :
    ∀ n : JsonNode, sizeOf n ≤ k → consistent n = true →
      Marshal fmt n = .ret (render fmt n, none) := by
  induction k with
  | zero =>
    intro n hk
    obtain ⟨t, v⟩ := n
    simp at hk
  | succ k ih =>
    intro n hk h
    obtain ⟨t, v⟩ := n
    cases t <;> cases v <;> simp [consistent] at h <;> try rfl
    case JArray.JArrayValue xs =>
      have hx : ∀ x ∈ xs, Marshal fmt x = .ret (render fmt x, none) := by
        intro x hx
        have h1 : sizeOf x < sizeOf xs := List.sizeOf_lt_of_mem hx
        simp at hk
        exact ih x (by omega) ((consistentList_iff xs).1 h x hx)
      simp [Marshal, render, marshalArray_start fmt xs hx, renderList_eq_map]
    case JObject.JObjectValue m =>
      have hx : ∀ e ∈ m, Marshal fmt e.2 = .ret (render fmt e.2, none) := by
        intro e he
        have h1 : sizeOf e < sizeOf m := List.sizeOf_lt_of_mem he
        have h2 : sizeOf e.2 < sizeOf e := by
          obtain ⟨k, x⟩ := e
          simp
        simp at hk
        exact ih e.2 (by omega) ((consistentEntries_iff m).1 h e he)
      simp [Marshal, render, marshalObject_start fmt m hx, renderEntries_eq_map]

/-- On a consistent tree `Marshal` returns the reference rendering and a nil error. -/
theorem Marshal_render (fmt : float64 → String) (n : JsonNode) (h : consistent n = true) :
    Marshal fmt n = .ret (render fmt n, none) :=
  Marshal_render_sized fmt (sizeOf n) n (Nat.le_refl _) h

/-! ## Iteration -/

/-- The loop of `Do` over a slice is the visit of its elements, each with its index, in
index order. -/
theorem doArray_visit {σ : Type} (fn : σ → GoValue → JsonNode → σ × JsonNode)
    (xs : List JsonNode) (i : Nat) (s : σ) (acc : List JsonNode) :
    List.foldl
        (fun (a : σ × List JsonNode) (it : GoValue × JsonNode) =>
          ((fn a.1 it.1 it.2).1, a.2 ++ [(fn a.1 it.1 it.2).2]))
        (s, acc) ((xs.enumFrom i).map (fun p => (GoValue.int p.1, p.2))) =
      ((doArray fn i xs s).1, acc ++ (doArray fn i xs s).2) := by
  induction xs generalizing i s acc with
  | nil => simp [doArray]
  | cons x xs ih =>
    simp only [List.enumFrom_cons, List.map_cons, List.foldl_cons, doArray]
    rw [ih]
    simp

/-- The loop of `Do` over a map is the visit of its entries, each with its key, in the
order of the entries, and it leaves every key in place. -/
theorem doObject_visit {σ : Type} (fn : σ → GoValue → JsonNode → σ × JsonNode)
    (m : List (String × JsonNode)) (s : σ) (acc : List JsonNode) :
    List.foldl
        (fun (a : σ × List JsonNode) (it : GoValue × JsonNode) =>
          ((fn a.1 it.1 it.2).1, a.2 ++ [(fn a.1 it.1 it.2).2]))
        (s, acc) (m.map (fun e => (GoValue.string e.1, e.2))) =
      ((doObject fn m s).1, acc ++ (doObject fn m s).2.map Prod.snd) ∧
    (doObject fn m s).2.map Prod.fst = m.map Prod.fst := by
  induction m generalizing s acc with
  | nil => simp [doObject]
  | cons e m ih =>
    obtain ⟨k, x⟩ := e
    simp only [List.map_cons, List.foldl_cons, doObject]
    rw [(ih _ _).1]
    simp [(ih (fn s (GoValue.string k) x).1 []).2]

/-! ## C13 to C15: escaping, round trip, consistency -/

/-- C13, divergence. For every string `s` and key `k`, `Marshal` writes `s` and `k`
between double quotes as they are, with no escape; for `s = a"b` the text is `"a"b"`,
whereas the JSON string literal of `s` is `"a\"b"`. -/
theorem C13_marshal_writes_strings_unescaped (FormatFloat : float64 → String)
    (s k : String) :
    Marshal FormatFloat (.mk .JString (.string s)) = .ret ("\"" ++ s ++ "\"", none) ∧
      Marshal FormatFloat (.mk .JObject (.JObjectValue [(k, NewJsonNode)])) =
        .ret ("\x7b\"" ++ k ++ "\":null\x7d", none) ∧
      Marshal FormatFloat (.mk .JString (.string "a\"b")) = .ret ("\"a\"b\"", none) ∧
      jsonQuote "a\"b" = "\"a\\\"b\"" := by
  refine ⟨rfl, ?_, rfl, by decide⟩
  simp [Marshal, marshalObject, NewJsonNode, String.append_assoc]

/-- C14, divergence. With a decoder that reads the text `"a\"b"` as the string `a"b`
and refuses the text `"a"b"`, as a conformant decoder does, `Unmarshal` of `"a\"b"`
succeeds with the String node `a"b`, `Marshal` of that node gives `"a"b"`, and
`Unmarshal` of this text returns an error: the round trip does not come back. -/
theorem C14_round_trip_breaks_on_quote (decode : String → GoValue × error)
    (FormatFloat : float64 → String) (n : JsonNode) (e : String)
    (h1 : decode "\"a\\\"b\"" = (.string "a\"b", none))
    (h2 : (decode "\"a\"b\"").2 = some e) :
    Unmarshal decode n "\"a\\\"b\"" = (.mk .JString (.string "a\"b"), .ret none) ∧
      Marshal FormatFloat (.mk .JString (.string "a\"b")) = .ret ("\"a\"b\"", none) ∧
      Unmarshal decode (.mk .JString (.string "a\"b")) "\"a\"b\"" =
        (.mk .JString (.string "a\"b"), .ret (some e)) := by
  refine ⟨?_, rfl, ?_⟩
  · simp [Unmarshal, h1, supportUnmarshal, Copy, JsonNode.nodeType, JsonNode.value]
  · rcases hd : decode "\"a\"b\"" with ⟨f, err⟩
    rw [hd] at h2
    simp only at h2
    subst h2
    simp [Unmarshal, hd]

/-- C14, witness: the decoder of string literals reads `"a\"b"` as `a"b` and refuses
`"a"b"`. -/
theorem C14_round_trip_breaks_on_quote_witness :
    decodeStringText "\"a\\\"b\"" = (.string "a\"b", none) ∧
      (decodeStringText "\"a\"b\"").2 = some "invalid character in string literal" ∧
      Unmarshal decodeStringText NewJsonNode "\"a\\\"b\"" =
        (.mk .JString (.string "a\"b"), .ret none) ∧
      Marshal (fun _ => "") (.mk .JString (.string "a\"b")) = .ret ("\"a\"b\"", none) ∧
      Unmarshal decodeStringText (.mk .JString (.string "a\"b")) "\"a\"b\"" =
        (.mk .JString (.string "a\"b"),
          .ret (some "invalid character in string literal")) :=
  ⟨rfl, rfl,
    C14_round_trip_breaks_on_quote decodeStringText (fun _ => "") NewJsonNode
      "invalid character in string literal" rfl rfl⟩

/-- C15, divergence. On a fresh, consistent node, `Set` with a generic `[]interface{}`
value returns a nil error and leaves the tag Array over a payload that is no
`JArrayValue`; `Set` with a generic map does the same under the tag Object; and `Set`
with a value of another type, such as an `int32`, returns an error after it has stored
the value under the tag Null. None of the three nodes is consistent. -/
theorem C15_set_breaks_consistency :
    consistent NewJsonNode = true ∧
      Set NewJsonNode (.slice []) [] =
        (.mk .JArray (.slice []), .ret (some (.mk .JArray (.slice [])), none)) ∧
      consistent (.mk .JArray (.slice [])) = false ∧
      Set NewJsonNode (.gomap []) [] =
        (.mk .JObject (.gomap []), .ret (some (.mk .JObject (.gomap [])), none)) ∧
      consistent (.mk .JObject (.gomap [])) = false ∧
      Set NewJsonNode (.other "int32" .Other) [] =
        (.mk .JNull (.other "int32" .Other),
          .ret (some (.mk .JNull (.other "int32" .Other)), some "wrong type")) ∧
      consistent (.mk .JNull (.other "int32" .Other)) = false :=
  ⟨rfl, rfl, rfl, rfl, rfl, rfl, rfl⟩

/-! ## C18 and C19: Do and Marshal -/

/-- C18. For every visitor, with whatever state of its own: on an Array, `Do` calls it
once on each element with its index, in index order, and returns nil; on an Object it
calls it once on each entry with its key and returns nil; on a node of any other tag it
returns a non-nil error without a call.  Only the direct children are visited, and the
parent afterwards holds each child as the visitor left it. -/
theorem C18_do_visits_children {σ : Type} (fn : σ → GoValue → JsonNode → σ × JsonNode)
    (s : σ) (xs : List JsonNode) (m : List (String × JsonNode)) (n : JsonNode)
    (hn : n.nodeType ≠ .JArray ∧ n.nodeType ≠ .JObject) :
    Do (.mk .JArray (.JArrayValue xs)) fn s =
        (.mk .JArray (.JArrayValue
            (visitAll fn (xs.enum.map (fun p => (GoValue.int p.1, p.2))) s).2),
          (visitAll fn (xs.enum.map (fun p => (GoValue.int p.1, p.2))) s).1, .ret none) ∧
      Do (.mk .JObject (.JObjectValue m)) fn s =
        (.mk .JObject (.JObjectValue ((m.map Prod.fst).zip
            (visitAll fn (m.map (fun e => (GoValue.string e.1, e.2))) s).2)),
          (visitAll fn (m.map (fun e => (GoValue.string e.1, e.2))) s).1, .ret none) ∧
      Do n fn s = (n, s, .ret (some "can not be iterated")) := by
  refine ⟨?_, ?_, ?_⟩
  · have h := doArray_visit fn xs 0 s []
    simp only [visitAll, List.enum, h]
    simp [Do, JsonNode.nodeType, JsonNode.value]
  · have h := doObject_visit fn m s []
    simp only [visitAll, h.1]
    have hz : (m.map Prod.fst).zip ((doObject fn m s).2.map Prod.snd) = (doObject fn m s).2 :=
      (List.zip_of_prod h.2 rfl).symm
    simp [Do, JsonNode.nodeType, JsonNode.value, hz]
  · obtain ⟨t, v⟩ := n
    cases t <;> simp [JsonNode.nodeType] at hn <;> rfl

/-- C18, witness: on the object of the tests, the visitor of `TestIteratorObject` is
called on the three entries, and the Number it set under `"Age"` is read back through
the parent as 12. -/
theorem C18_do_visits_children_witness :
    (Do wednesday ageVisitor []).2.1 =
        [(.string "Name", .mk .JString (.string "Wednesday")),
          (.string "Age", .mk .JNumber (.float64 (float64OfInt 6))),
          (.string "Parents", .mk .JArray (.JArrayValue [
            .mk .JString (.string "Gomez"), .mk .JString (.string "Morticia")]))] ∧
      GetNumber (Do wednesday ageVisitor []).1 [.string "Age"] =
        .ret (float64OfInt 12, none) ∧
      Do NewJsonNode ageVisitor [] = (NewJsonNode, [], .ret (some "can not be iterated")) :=
  have h := C18_do_visits_children ageVisitor []
    [.mk .JString (.string "x")]
    [("Name", .mk .JString (.string "Wednesday")),
      ("Age", .mk .JNumber (.float64 (float64OfInt 6))),
      ("Parents", .mk .JArray (.JArrayValue [
        .mk .JString (.string "Gomez"), .mk .JString (.string "Morticia")]))]
    NewJsonNode ⟨by decide, by decide⟩
  ⟨(congrArg (fun r => r.2.1) h.2.1).trans rfl,
    (congrArg (fun r => GetNumber r.1 [.string "Age"]) h.2.1).trans rfl, h.2.2⟩

/-- C19. For every tree whose tags and payloads are consistent, `Marshal` returns a nil
error and the reference rendering: `null`, `true` or `false`, the number as the library
prints it, the string between quotes, the element renderings of an Array in index order
joined by single commas between `[` and `]`, the `"key":rendering` pairs of an Object,
one for each entry, joined by single commas between braces; nothing else is written. -/
theorem C19_marshal_reference_rendering (FormatFloat : float64 → String) (n : JsonNode)
    (h : consistent n = true) :
    Marshal FormatFloat n = .ret (render FormatFloat n, none) :=
  Marshal_render FormatFloat n h

/-- C19, witness: the Object with the single entry `Age` holding the Number 6 renders
as `{"Age":6}` with every number printer that prints 6 as `6`, and the empty containers
render as `[]` and `{}`. -/
theorem C19_marshal_reference_rendering_witness :
    consistent (.mk .JObject (.JObjectValue [("Age", .mk .JNumber (.float64 (float64OfInt 6)))]))
        = true ∧
      (∀ FormatFloat : float64 → String, FormatFloat (float64OfInt 6) = "6" →
        Marshal FormatFloat
            (.mk .JObject (.JObjectValue [("Age", .mk .JNumber (.float64 (float64OfInt 6)))])) =
          .ret ("\x7b\"Age\":6\x7d", none)) ∧
      render (fun _ => "") (.mk .JArray (.JArrayValue [])) = "[]" ∧
      render (fun _ => "") (.mk .JObject (.JObjectValue [])) = "\x7b\x7d" :=
  ⟨rfl,
    fun FormatFloat hf => by
      rw [C19_marshal_reference_rendering FormatFloat
        (.mk .JObject (.JObjectValue [("Age", .mk .JNumber (.float64 (float64OfInt 6)))])) rfl]
      simp only [render, renderEntries, String.intercalate, String.intercalate.go, hf]
      rfl,
    by decide, by decide⟩

/-! ## C20: paths that `Set` does not touch -/

/-- Looking up another key after `m[k] = x` gives what it gave before. -/
theorem mapGet_mapSet_ne (m : List (String × JsonNode)) (k k' : String) (x : JsonNode)
    (h : k ≠ k') : mapGet (mapSet m k x) k' = mapGet m k' := by
  induction m with
  | nil => simp [mapSet, mapGet, h]
  | cons e m ih =>
    obtain ⟨k0, y⟩ := e
    by_cases h0 : k0 = k
    · subst h0
      simp [mapSet, mapGet, h]
    · by_cases h1 : k0 = k'
      · subst h1
        simp [mapSet, mapGet, h0]
      · simp [mapSet, mapGet, h0, h1, ih]

/-- What `Get` returns depends on the node only through the child its first segment
selects. -/
theorem Get_congr_first (a b : Option JsonNode) (s : GoValue) (rest : List GoValue)
    (h : getNextNode a s = getNextNode b s) : Get a (s :: rest) = Get b (s :: rest) := by
  cases rest <;> simp [Get, h]

/-- When `Get` returns with a nil error, so did `getNextNode` on the first segment. -/
theorem getNextNode_of_Get (a : Option JsonNode) (s : GoValue) (rest : List GoValue)
    (m : Option JsonNode) (h : Get a (s :: rest) = .ret (m, none)) :
    ∃ x, getNextNode a s = .ret (x, none) := by
  cases rest with
  | nil => exact ⟨m, by simpa [Get] using h⟩
  | cons s2 rest2 =>
    simp only [Get] at h
    rcases hstep : getNextNode a s with ⟨x, err⟩ | _
    · rw [hstep] at h
      cases err with
      | none => exact ⟨x, rfl⟩
      | some e => simp at h
    · rw [hstep] at h
      simp at h

/-- The step of `Set` at the segment where the two paths part: the child that the other
segment, of the same type, selects is the same before and after. -/
theorem getNextNode_putChild_other (n node1 c c' : JsonNode) (sp sq : GoValue)
    (x : Option JsonNode) (hstep : getOrAddNextNode n sp = (node1, .ret (some c, none)))
    (hne : sp ≠ sq) (hk : sameKind sp sq = true)
    (hq : getNextNode (some n) sq = .ret (x, none)) :
    getNextNode (some (putChild node1 sp c')) sq = .ret (x, none) := by
  obtain ⟨t, v⟩ := n
  cases sp <;> cases sq <;> simp [sameKind] at hk
  case string.string kp kq =>
    have hkk : kp ≠ kq := fun h => hne (by rw [h])
    by_cases ht : t = .JObject
    · subst ht
      cases v with
      | JObjectValue m =>
        simp only [getNextNode, JsonNode.nodeType, JsonNode.value, if_true,
          Outcome.ret.injEq, Prod.mk.injEq, and_true] at hq
        simp only [getOrAddNextNode, JsonNode.nodeType, JsonNode.value, if_true,
          Prod.mk.injEq] at hstep
        obtain ⟨h1, _⟩ := hstep
        subst h1
        cases hg : mapGet m kp with
        | some y =>
          simp [putChild, getNextNode, JsonNode.nodeType, JsonNode.value,
            mapGet_mapSet_ne _ _ _ _ hkk, hq]
        | none =>
          simp [putChild, getNextNode, JsonNode.nodeType, JsonNode.value,
            mapGet_mapSet_ne _ _ _ _ hkk, hq]
      | _ => simp [getNextNode, JsonNode.nodeType, JsonNode.value] at hq
    · simp [getNextNode, JsonNode.nodeType, ht] at hq
  case int.int ip iq =>
    have hii : ip ≠ iq := fun h => hne (by rw [h])
    by_cases ht : t = .JArray
    · subst ht
      cases v with
      | JArrayValue xs =>
        have hq' : (0 ≤ iq ∧ iq < xs.length) ∧ xs[iq.toNat]? = x := by
          by_cases hr : 0 ≤ iq ∧ iq < xs.length
          · simpa [getNextNode, JsonNode.nodeType, JsonNode.value, hr] using hq
          · simp [getNextNode, JsonNode.nodeType, JsonNode.value, hr] at hq
        obtain ⟨⟨hq0, hq1⟩, hq2⟩ := hq'
        by_cases hp : ip < 0
        · simp [getOrAddNextNode, JsonNode.nodeType, JsonNode.value, hp] at hstep
        · obtain ⟨a, rfl⟩ := Int.eq_ofNat_of_zero_le (by omega : 0 ≤ ip)
          obtain ⟨b, rfl⟩ := Int.eq_ofNat_of_zero_le hq0
          rw [getOrAddNextNode_array] at hstep
          simp only [Prod.mk.injEq] at hstep
          obtain ⟨h1, _⟩ := hstep
          subst h1
          have hb : b < xs.length := by exact_mod_cast hq1
          have hab : a ≠ b := fun h => hii (by rw [h])
          have hlen : (b : Int) < ↑xs.length + ↑(a + 1 - xs.length) := by omega
          simp only [Int.toNat_ofNat] at hq2
          simp [putChild, getNextNode, JsonNode.nodeType, JsonNode.value, hlen,
            List.getElem?_set_ne hab, List.getElem?_append_left hb, hq2]
      | _ => simp [getNextNode, JsonNode.nodeType, JsonNode.value] at hq
    · simp [getNextNode, JsonNode.nodeType, ht] at hq

/-- A child that `getNextNode` returns with a nil error for a key or an index is the
child that segment addresses. -/
theorem child_of_getNextNode (n c : JsonNode) (s : GoValue) (hs : isSegment s = true)
    (h : getNextNode (some n) s = .ret (some c, none)) : child n s = some c := by
  obtain ⟨t, v⟩ := n
  cases s <;> simp [isSegment] at hs
  case string k =>
    by_cases ht : t = .JObject
    · subst ht
      cases v <;> simp [getNextNode, JsonNode.nodeType, JsonNode.value] at h
      simpa [child] using h
    · simp [getNextNode, JsonNode.nodeType, ht] at h
  case int i =>
    by_cases ht : t = .JArray
    · subst ht
      cases v with
      | JArrayValue xs =>
        by_cases hr : 0 ≤ i ∧ i < xs.length
        · have h2 : xs[i.toNat]? = some c := by
            simpa [getNextNode, JsonNode.nodeType, JsonNode.value, hr] using h
          simp [child, hs, h2]
        · simp [getNextNode, JsonNode.nodeType, JsonNode.value, hr] at h
      | _ => simp [getNextNode, JsonNode.nodeType, JsonNode.value] at h
    · simp [getNextNode, JsonNode.nodeType, ht] at h

/-- `Set` on a consistent tree does not disturb a path that parts from the written one
at a segment of the same type. -/
theorem Set_frame (pre : List GoValue) (sp sq : GoValue) (restp restq : List GoValue)
    (n : JsonNode) (v : GoValue) (m : Option JsonNode)
    (hn : consistent n = true) (hv : isScalar v = true)
    (hp : ∀ s ∈ pre ++ sp :: restp, isSegment s = true)
    (hq : ∀ s ∈ pre ++ sq :: restq, isSegment s = true)
    (hne : sp ≠ sq) (hk : sameKind sp sq = true)
    (hget : Get (some n) (pre ++ sq :: restq) = .ret (m, none)) :
    ∃ n', Set n v (pre ++ sp :: restp) = (n', .ret (some (nodeOf v), none)) ∧
      Get (some n') (pre ++ sq :: restq) = .ret (m, none) := by
  induction pre generalizing n v with
  | nil =>
    simp only [List.nil_append] at hp hq hget ⊢
    obtain ⟨w, hw, hws, hwn, _, hset⟩ := intToFloat_scalar v hv
    obtain ⟨node1, c, hstep, hc, _⟩ :=
      getOrAddNextNode_segment n sp hn (hp sp (List.mem_cons_self _ _))
    obtain ⟨x, hx⟩ := getNextNode_of_Get _ sq restq m hget
    have hframe : ∀ c', Get (some (putChild node1 sp c')) (sq :: restq) = .ret (m, none) := by
      intro c'
      rw [Get_congr_first _ (some n) sq restq
        ((getNextNode_putChild_other n node1 c c' sp sq x hstep hne hk hx).trans hx.symm)]
      exact hget
    cases restp with
    | nil =>
      exact ⟨putChild node1 sp (nodeOf v), by simp [Set, hw, hstep, hset], hframe _⟩
    | cons s2 rest2 =>
      obtain ⟨c', hc1, _⟩ := set_then_get (s2 :: rest2) (by simp)
        (fun s hs => hp s (List.mem_cons_of_mem _ hs)) c w hc hws
      rw [hwn] at hc1
      exact ⟨putChild node1 sp c', by simp [Set, hw, hstep, hc1], hframe _⟩
  | cons a pre ih =>
    obtain ⟨w, hw, hws, hwn, _, _⟩ := intToFloat_scalar v hv
    have ha : isSegment a = true := hp a (by simp)
    -- the tail of the read path is not empty
    cases htq : pre ++ sq :: restq with
    | nil => simp at htq
    | cons q2 restq2 =>
      have hget' := hget
      rw [List.cons_append, htq] at hget'
      simp only [Get] at hget'
      rcases hstepq : getNextNode (some n) a with ⟨firstNode, err⟩ | _
      · rw [hstepq] at hget'
        cases err with
        | some e => simp at hget'
        | none =>
          simp only [ne_eq, not_true_eq_false, if_false] at hget'
          cases firstNode with
          | none =>
            have hq2 : isSegment q2 = true := hq q2 (by
              rw [List.cons_append, htq]; simp)
            cases q2 <;> simp [isSegment] at hq2 <;>
              cases restq2 <;> simp [Get, getNextNode] at hget'
          | some c =>
            have hchild := child_of_getNextNode n c a ha hstepq
            have hc := consistent_child n c a hn hchild
            obtain ⟨hstep, _⟩ := getOrAddNextNode_child n a c hchild
            obtain ⟨_, _, hstep2, _, hput⟩ := getOrAddNextNode_segment n a hn ha
            rw [hstep] at hstep2
            simp only [Prod.mk.injEq] at hstep2
            obtain ⟨hn1, _⟩ := hstep2
            subst hn1
            rw [← htq] at hget'
            obtain ⟨c', hc1, hc2⟩ := ih c w hc hws
              (fun s hs => hp s (by simp at hs ⊢; exact Or.inr hs))
              (fun s hs => hq s (by simp at hs ⊢; exact Or.inr hs)) hget'
            rw [hwn] at hc1
            refine ⟨putChild n a c', ?_, ?_⟩
            · cases htp : pre ++ sp :: restp with
              | nil => simp at htp
              | cons p2 restp2 =>
                rw [htp] at hc1
                rw [List.cons_append, htp]
                simp [Set, hw, hstep, hc1]
            · rw [List.cons_append, htq]
              rw [htq] at hc2
              simp [Get, hput c', hc2]
      · rw [hstepq] at hget'
        simp at hget'

/-- C20. For every consistent tree `n`, every scalar `v` and all paths `p` and `q` of
string keys and non-negative int indices that agree on a prefix `pre` and then part at
two different segments of the same type: if `Get(q...)` returns `m` with a nil error,
then `Set(v, p...)` returns a nil error and afterwards `Get(q...)` still returns `m`
with a nil error. -/
theorem C20_set_keeps_other_paths (n : JsonNode) (v : GoValue) (pre : List GoValue)
    (sp sq : GoValue) (restp restq : List GoValue) (m : Option JsonNode)
    (hn : consistent n = true) (hv : isScalar v = true)
    (hp : ∀ s ∈ pre ++ sp :: restp, isSegment s = true)
    (hq : ∀ s ∈ pre ++ sq :: restq, isSegment s = true)
    (hne : sp ≠ sq) (hk : sameKind sp sq = true)
    (hget : Get (some n) (pre ++ sq :: restq) = .ret (m, none)) :
    ∃ n', Set n v (pre ++ sp :: restp) = (n', .ret (some (nodeOf v), none)) ∧
      Get (some n') (pre ++ sq :: restq) = .ret (m, none) :=
  Set_frame pre sp sq restp restq n v m hn hv hp hq hne hk hget

/-- C20, witness: in the object of the tests, `Set(23, "Parents", 4)` leaves
`Get("Parents", 0)` at the String node `"Gomez"`. -/
theorem C20_set_keeps_other_paths_witness :
    consistent wednesday = true ∧
      Get (some wednesday) ([.string "Parents"] ++ .int 0 :: []) =
        .ret (some (.mk .JString (.string "Gomez")), none) ∧
      ∃ n', Set wednesday (.int 23) ([.string "Parents"] ++ .int 4 :: []) =
          (n', .ret (some (nodeOf (.int 23)), none)) ∧
        Get (some n') ([.string "Parents"] ++ .int 0 :: []) =
          .ret (some (.mk .JString (.string "Gomez")), none) :=
  ⟨rfl, rfl,
    C20_set_keeps_other_paths wednesday (.int 23) [.string "Parents"] (.int 4) (.int 0) [] []
      (some (.mk .JString (.string "Gomez"))) rfl rfl
      (by simp [isSegment]) (by simp [isSegment]) (by simp) rfl rfl⟩

/-! ## C16: assignment of a node shares its storage -/

namespace Heap

/-- After `m[k] = x`, the index expression `m[k]` gives `x`. -/
theorem shared_mapGet_mapSet (m : List (String × Nat)) (k : String) (x : Nat) :
    mapGet (mapSet m k x) k = some x := by
  induction m with
  | nil => simp [mapSet, mapGet]
  | cons e m ih =>
    obtain ⟨k', y⟩ := e
    by_cases h : k' = k
    · simp [mapSet, mapGet, h]
    · simp [mapSet, mapGet, h, ih]

/-- After `delete(m, k)`, the key `k` is absent. -/
theorem shared_mapGet_mapDelete (m : List (String × Nat)) (k : String) :
    mapGet (mapDelete m k) k = none := by
  induction m with
  | nil => simp [mapDelete, mapGet]
  | cons e m ih =>
    obtain ⟨k', y⟩ := e
    by_cases h : k' = k
    · simp [mapDelete, h, ih]
    · simp [mapDelete, mapGet, h, ih]

/-- A scalar passes the conversion at the head of `Set`, and `Set` with no path segment
then stores the cell holding that scalar at any address in use. -/
theorem setValue_scalar (v : Value) (hv : isScalar v = true) :
    ∃ w, intToFloat v = .ret w ∧
      ∀ (h : Store) (c : Nat), c < h.nodes.length →
        setValue h c w = .ret (h.setNode c (cellOf v), some c, none) := by
  cases v <;> simp [isScalar] at hv
  case bool b =>
    refine ⟨.bool b, rfl, fun h c hc => ?_⟩
    simp [setValue, intToFloat, TypeOf, List.getElem?_eq_getElem hc, typeToJsonType, cellOf]
  case float64 f =>
    refine ⟨.float64 f, rfl, fun h c hc => ?_⟩
    simp [setValue, intToFloat, TypeOf, List.getElem?_eq_getElem hc, typeToJsonType, cellOf]
  case string s =>
    refine ⟨.string s, rfl, fun h c hc => ?_⟩
    simp [setValue, intToFloat, TypeOf, List.getElem?_eq_getElem hc, typeToJsonType, cellOf]
  case int i =>
    refine ⟨.float64 (float64OfInt i), rfl, fun h c hc => ?_⟩
    simp [setValue, intToFloat, TypeOf, List.getElem?_eq_getElem hc, typeToJsonType, cellOf]

/-- A write through one of two Object nodes that hold the same map is seen through the
other: after `x.Set(v, k)` with a scalar `v`, `y.Get(k)` returns the node holding `v`,
provided the entry of `k`, if there is one, is a node other than `y`. -/
theorem Set_seen_through_shared_map (grow : Nat → Nat) (h : Store) (x y r : Nat)
    (m : List (String × Nat)) (k : String) (v : Value)
    (hx : h.nodes[x]? = some ⟨.JObject, .JObjectValue r⟩)
    (hy : h.nodes[y]? = some ⟨.JObject, .JObjectValue r⟩)
    (hm : h.maps[r]? = some m)
    (hc : ∀ c, mapGet m k = some c → c ≠ y ∧ c < h.nodes.length)
    (hv : isScalar v = true) :
    ∃ h' c, Set grow h x v [.string k] = .ret (h', some c, none) ∧
      Get h' (some y) [.string k] = .ret (some c, none) ∧
      h'.nodes[c]? = some (cellOf v) := by
  obtain ⟨w, hw, hset⟩ := setValue_scalar v hv
  have hylt : y < h.nodes.length := (List.getElem?_eq_some_iff.1 hy).1
  have hrlt : r < h.maps.length := (List.getElem?_eq_some_iff.1 hm).1
  cases hg : mapGet m k with
  | some c =>
    obtain ⟨hcy, hclt⟩ := hc c hg
    refine ⟨h.setNode c (cellOf v), c, ?_, ?_, ?_⟩
    · simp [Set, hw, getOrAddNextNode, getOrAddKey, hx, hm, hg, hset h c hclt]
    · have hy' : (h.setNode c (cellOf v)).nodes[y]? = some ⟨.JObject, .JObjectValue r⟩ := by
        simp only [Store.setNode]
        rw [List.getElem?_set_ne hcy]
        exact hy
      have hm' : (h.setNode c (cellOf v)).maps[r]? = some m := hm
      simp [Get, getNextNode, hy', hm', hg]
    · simp [Store.setNode, List.getElem?_set_self hclt]
  | none =>
    refine ⟨((NewJsonNode h).1.setMap r (mapSet m k h.nodes.length)).setNode h.nodes.length
      (cellOf v), h.nodes.length, ?_, ?_, ?_⟩
    · have hlen : h.nodes.length <
          ((NewJsonNode h).1.setMap r (mapSet m k h.nodes.length)).nodes.length := by
        simp [NewJsonNode, Store.setMap]
      simp [Set, hw, getOrAddNextNode, getOrAddKey, hx, hm, hg, NewJsonNode]
      exact hset _ _ hlen
    · have hy' : (((NewJsonNode h).1.setMap r (mapSet m k h.nodes.length)).setNode
          h.nodes.length (cellOf v)).nodes[y]? = some ⟨.JObject, .JObjectValue r⟩ := by
        simp only [Store.setNode, Store.setMap, NewJsonNode]
        rw [List.getElem?_set_ne (by omega), List.getElem?_append_left hylt]
        exact hy
      have hm' : (((NewJsonNode h).1.setMap r (mapSet m k h.nodes.length)).setNode
          h.nodes.length (cellOf v)).maps[r]? = some (mapSet m k h.nodes.length) := by
        simp [Store.setNode, Store.setMap, NewJsonNode, List.getElem?_set_self hrlt]
      simp [Get, getNextNode, hy', hm', shared_mapGet_mapSet]
    · simp [Store.setNode, Store.setMap, NewJsonNode]

/-- A key deleted through one of two Object nodes that hold the same map is gone for
the other. -/
theorem Delete_seen_through_shared_map (h : Store) (x y r : Nat)
    (m : List (String × Nat)) (k : String) (c : Nat)
    (hx : h.nodes[x]? = some ⟨.JObject, .JObjectValue r⟩)
    (hy : h.nodes[y]? = some ⟨.JObject, .JObjectValue r⟩)
    (hm : h.maps[r]? = some m) (hg : mapGet m k = some c) :
    ∃ h', Delete h x [.string k] = .ret (h', true, none) ∧
      Get h' (some y) [.string k] = .ret (none, none) := by
  have hrlt : r < h.maps.length := (List.getElem?_eq_some_iff.1 hm).1
  refine ⟨h.setMap r (mapDelete m k), ?_, ?_⟩
  · simp [Delete, deleteChild, hx, hm, hg, jsonhandler.TypeOf]
  · have hy' : (h.setMap r (mapDelete m k)).nodes[y]? =
        some ⟨.JObject, .JObjectValue r⟩ := hy
    have hm' : (h.setMap r (mapDelete m k)).maps[r]? = some (mapDelete m k) := by
      simp [Store.setMap, List.getElem?_set_self hrlt]
    simp [Get, getNextNode, hy', hm', shared_mapGet_mapDelete]

end Heap

namespace Heap

/-- C4, counterexample. In the store of the tests, after a cell took the Array `Parents`
by `Copy` and `Delete(0)` was called through it, the Array `Parents` still has length 2
and holds the cell of `"Morticia"` at both indices; `Set("x", 0)` through it then changes
the element at index 1 as well. -/
theorem C4_counterexample_shared_element :
    storeShifted.nodes[3]? = some ⟨.JArray, .JArrayValue 0 2⟩ ∧
      storeShifted.arrays[0]? = some [some 5, some 5] ∧
      GetString storeShifted 3 [.int 1] = .ret ("Morticia", none) ∧
      ∀ grow : Nat → Nat,
        GetString (storeShiftedWritten grow) 3 [.int 0] = .ret ("x", none) ∧
          GetString (storeShiftedWritten grow) 3 [.int 1] = .ret ("x", none) :=
  ⟨rfl, rfl, rfl, fun _ => ⟨rfl, rfl⟩⟩

/-- C16, counterexample. In the store of `TestSetJsonObject`, `node2.GetString("Body")`
is `"Hello"`; after `node.Set(node2, "Other")` and `node.Set(true, "Other", "Body")` it
returns an error and `node2.GetBool("Body")` returns `true`: the write through `node`
went into the map of `node2`.  Likewise a `Delete(0)` through a cell that took the Array
`Parents` by `Copy` shifts the elements the Array `Parents` itself sees. -/
theorem C16_counterexample_write_reaches_source :
    GetString testStore 6 [.string "Body"] = .ret ("Hello", none) ∧
      (∀ grow : Nat → Nat,
        GetString (storeAssigned grow) 0 [.string "Other", .string "Body"] =
            .ret ("Hello", none) ∧
          GetBool (storeWritten grow) 0 [.string "Other", .string "Body"] =
            .ret (true, none) ∧
          GetString (storeWritten grow) 6 [.string "Body"] =
            .ret ("", some "node is not string type") ∧
          GetBool (storeWritten grow) 6 [.string "Body"] = .ret (true, none)) ∧
      GetString testStore 3 [.int 0] = .ret ("Gomez", none) ∧
      GetString storeShifted 3 [.int 0] = .ret ("Morticia", none) :=
  ⟨rfl, fun _ => ⟨rfl, rfl, rfl, rfl⟩, rfl, rfl⟩

/-- C16, amended. Assigning a node copies it shallowly: after `a.Copy(b)`, or `a.Set(b)`
with no path segment, with `b` an Object, the cell of `a` carries the tag of `b` and the
very map of `b`.  The storage is shared: for a key `k` whose entry, if any, is neither
`a` nor `b`, a later `a.Set(v, k)` with a scalar `v` is seen through `b`, whose `Get(k)`
then returns the node holding `v`; a later `b.Set(v, k)` is seen through `a` in the same
way; and a later `a.Delete(k)` of a key present removes it for `b` as well. -/
theorem C16_assignment_shares_storage (grow : Nat → Nat) (h : Store) (a b r : Nat)
    (ca : JsonNode) (m : List (String × Nat)) (k : String) (v : Value)
    (ha : h.nodes[a]? = some ca)
    (hb : h.nodes[b]? = some ⟨.JObject, .JObjectValue r⟩)
    (hm : h.maps[r]? = some m)
    (hc : ∀ c, mapGet m k = some c → c ≠ a ∧ c ≠ b ∧ c < h.nodes.length)
    (hv : isScalar v = true) :
    ∃ h1, Copy h a (some b) = .ret (h1, none) ∧
      Set grow h a (.ptr (some b)) [] = .ret (h1, some a, none) ∧
      h1.nodes[a]? = some ⟨.JObject, .JObjectValue r⟩ ∧
      h1.nodes[b]? = some ⟨.JObject, .JObjectValue r⟩ ∧
      (∃ h2 c, Set grow h1 a v [.string k] = .ret (h2, some c, none) ∧
        Get h2 (some b) [.string k] = .ret (some c, none) ∧
        h2.nodes[c]? = some (cellOf v)) ∧
      (∃ h2 c, Set grow h1 b v [.string k] = .ret (h2, some c, none) ∧
        Get h2 (some a) [.string k] = .ret (some c, none) ∧
        h2.nodes[c]? = some (cellOf v)) ∧
      (∀ c, mapGet m k = some c →
        ∃ h2, Delete h1 a [.string k] = .ret (h2, true, none) ∧
          Get h2 (some b) [.string k] = .ret (none, none)) := by
  have halt : a < h.nodes.length := (List.getElem?_eq_some_iff.1 ha).1
  have ha1 : (h.setNode a ⟨.JObject, .JObjectValue r⟩).nodes[a]? =
      some ⟨.JObject, .JObjectValue r⟩ := by
    simp [Store.setNode, List.getElem?_set_self halt]
  have hb1 : (h.setNode a ⟨.JObject, .JObjectValue r⟩).nodes[b]? =
      some ⟨.JObject, .JObjectValue r⟩ := by
    by_cases hab : a = b
    · subst hab
      exact ha1
    · simp only [Store.setNode]
      rw [List.getElem?_set_ne hab]
      exact hb
  have hm1 : (h.setNode a ⟨.JObject, .JObjectValue r⟩).maps[r]? = some m := hm
  have hlen : (h.setNode a ⟨.JObject, .JObjectValue r⟩).nodes.length = h.nodes.length := by
    simp [Store.setNode]
  refine ⟨h.setNode a ⟨.JObject, .JObjectValue r⟩, ?_, ?_, ha1, hb1, ?_, ?_, ?_⟩
  · simp [Copy, ha, hb]
  · simp [Set, setValue, intToFloat, TypeOf, ha, hb]
  · exact Set_seen_through_shared_map grow _ a b r m k v ha1 hb1 hm1
      (fun c hg => ⟨(hc c hg).2.1, by rw [hlen]; exact (hc c hg).2.2⟩) hv
  · exact Set_seen_through_shared_map grow _ b a r m k v hb1 ha1 hm1
      (fun c hg => ⟨(hc c hg).1, by rw [hlen]; exact (hc c hg).2.2⟩) hv
  · intro c hg
    exact Delete_seen_through_shared_map _ a b r m k c ha1 hb1 hm1 hg

/-- C16, witness: in the store of the tests, the cell at address 7 takes `node2`
(address 6) by `Copy`; `Set(true, "Body")` through it is then read through `node2`. -/
theorem C16_assignment_shares_storage_witness :
    testStore.nodes[7]? = some ⟨.JString, .string "Alice"⟩ ∧
      testStore.nodes[6]? = some ⟨.JObject, .JObjectValue 1⟩ ∧
      ∃ h1, Copy testStore 7 (some 6) = .ret (h1, none) ∧
        ∃ h2 c, Set (fun n => n) h1 7 (.bool true) [.string "Body"] = .ret (h2, some c, none) ∧
          Get h2 (some 6) [.string "Body"] = .ret (some c, none) ∧
          h2.nodes[c]? = some ⟨.JBool, .bool true⟩ :=
  have h := C16_assignment_shares_storage (fun n => n) testStore 7 6 1
    ⟨.JString, .string "Alice"⟩ [("Name", 7), ("Body", 8), ("Time", 9)] "Body" (.bool true)
    rfl rfl rfl
    (by
      intro c hc
      have h8 : c = 8 := by
        have : mapGet [("Name", 7), ("Body", 8), ("Time", 9)] "Body" = some 8 := rfl
        rw [this] at hc
        exact (Option.some.inj hc).symm
      subst h8
      exact ⟨by decide, by decide, by decide⟩)
    rfl
  ⟨rfl, rfl, h.elim fun h1 hh => ⟨h1, hh.1, hh.2.2.2.2.1⟩⟩

end Heap

end jsonhandler
